import Mathlib

/-!
Verification of the statement-canonicalization and marker-instrumentation
engine of the `dead` repository (`dce_instrumenter/src/DCEInstrumenter.cpp`,
classes `DCECanonicalizerTool` and `DCEInstrumenterTool`).

The engine is a pair of `clang` AST-matcher callbacks.  We shallowly embed:

* the statement fragment of the clang AST that the matchers inspect
  (`Stmt` below), each node carrying its begin location, the location of
  the start of its last token, and the file of its expansion location;
* the `SourceManager`/`Lexer` services the code calls
  (`Src` below: token text at a location, next-token lookup, `;`-token
  test, location validity, decomposed file id, spelling location, file of
  a location, main-file id, start-of-file location);
* the edit machinery `createReplacement` / `addReplacementOrDie` over
  `clang::tooling::Replacements`.  Every replacement the engine forms is a
  token range with `Start = End`, i.e. it rewrites the single token at one
  location; two such ranges overlap exactly when they sit at the same
  spelled location of the same file, which `clang`'s `Replacements::add`
  rejects (the code then dies in `llvm_unreachable`), recorded here by the
  `died` flag.  An invalid replacement (any of `createReplacement`'s three
  guard failures) prints a diagnostic and yields the default `Replacement`,
  an empty zero-width insertion under the invalid-location file key, which
  `Replacements::add` merges without error; we record it in `diags`.
* the match traversal.  `MatchFinder` runs a statement's matchers when
  the node is *enqueued* during `RecursiveASTVisitor`'s LIFO data
  recursion (`MatchASTVisitor::TraverseStmt` calls `match` before
  enqueuing): an expanded node reports its children as one batch in
  sibling order, and the expansion itself proceeds depth-first, so the
  batches follow the depth-first expansion order of their parents — a
  construct nested under an earlier sibling can be reported after a
  shallower construct of a later sibling.  At each reported node the
  matchers that accept it fire in registration order.  This enqueue-time
  order is reproduced exactly by `visitOrder` below and is consistent
  with the repository's own test `DCEInstrumentTool switch` (marker ids
  0..5).

Statement locations are abstract byte offsets (`Nat`).  A node's `endL` is
the location of the START of its last token, as `getEndLoc` returns in
clang, so `Lexer::GetBeginningOfToken` at `endL` is the identity.
-/

namespace Dce

/-- Per-node location data: begin location, location of the start of the
last token, and the file id of the node's expansion location (`0` is used
for the main file in the concrete examples, but nothing fixes that). -/
structure Info where
  beg : Nat
  endL : Nat
  expFile : Nat
  deriving Repr, DecidableEq

/-- The statement fragment of the clang AST inspected by the two tools.
`compound`'s `Info.beg` is the `{` token (`getLBracLoc`) and its `endL`
the `}` token.  `caseS`/`defaultS` carry the label's sub-statement, which
in the clang AST is the single statement immediately following the label;
the remaining statements of the case body are siblings inside the
switch's compound statement. -/
inductive Stmt where
  | compound : Info → List Stmt → Stmt
  | nullS : Info → Stmt
  | exprS : Info → Stmt
  | returnS : Info → Stmt
  | breakS : Info → Stmt
  | ifS : Info → Stmt → Option Stmt → Stmt
  | forS : Info → Stmt → Stmt
  | whileS : Info → Stmt → Stmt
  | doS : Info → Stmt → Stmt
  | rangeForS : Info → Stmt → Stmt
  | switchS : Info → Stmt → Stmt
  | caseS : Info → Stmt → Stmt
  | defaultS : Info → Stmt → Stmt
  deriving Repr

namespace Stmt

/-- The node's location data. -/
def info : Stmt → Info
  | compound i _ => i
  | nullS i => i
  | exprS i => i
  | returnS i => i
  | breakS i => i
  | ifS i _ _ => i
  | forS i _ => i
  | whileS i _ => i
  | doS i _ => i
  | rangeForS i _ => i
  | switchS i _ => i
  | caseS i _ => i
  | defaultS i _ => i

/-- `getBeginLoc`. -/
def beginLoc (s : Stmt) : Nat := s.info.beg

/-- `getEndLoc` (start of the last token). -/
def endLoc (s : Stmt) : Nat := s.info.endL

/-- `isa<CompoundStmt>`. -/
def isCompound : Stmt → Bool
  | compound _ _ => true
  | _ => false

/-- `isa<NullStmt>`. -/
def isNull : Stmt → Bool
  | nullS _ => true
  | _ => false

/-- The statement children, in syntactic order; these are the nodes the
match traversal descends into (expression children never match any of the
registered matchers and are omitted). -/
def childrenOf : Stmt → List Stmt
  | compound _ ss => ss
  | nullS _ => []
  | exprS _ => []
  | returnS _ => []
  | breakS _ => []
  | ifS _ t (some e) => [t, e]
  | ifS _ t none => [t]
  | forS _ b => [b]
  | whileS _ b => [b]
  | doS _ b => [b]
  | rangeForS _ b => [b]
  | switchS _ b => [b]
  | caseS _ b => [b]
  | defaultS _ b => [b]

end Stmt

open Stmt

mutual

/-- Whether the statement or any of its descendants is a `return`
(self-inclusive; `hasDescendant(returnStmt())` holds of a node iff this
holds of one of its children). -/
def containsReturn : Stmt → Bool
  | .compound _ ss => containsReturnL ss
  | .nullS _ => false
  | .exprS _ => false
  | .returnS _ => true
  | .breakS _ => false
  | .ifS _ t (some e) => containsReturn t || containsReturn e
  | .ifS _ t none => containsReturn t
  | .forS _ b => containsReturn b
  | .whileS _ b => containsReturn b
  | .doS _ b => containsReturn b
  | .rangeForS _ b => containsReturn b
  | .switchS _ b => containsReturn b
  | .caseS _ b => containsReturn b
  | .defaultS _ b => containsReturn b

/-- `containsReturn` over a sibling list. -/
def containsReturnL : List Stmt → Bool
  | [] => false
  | s :: ss => containsReturn s || containsReturnL ss

end

mutual

/-- Whether the statement or any of its descendants is a `case` or
`default` label (self-inclusive; the matchers' `unless(anyOf(
hasDescendant(defaultStmt()), hasDescendant(caseStmt())))` holds of a
label node iff this is false of its sub-statement). -/
def containsLabel : Stmt → Bool
  | .compound _ ss => containsLabelL ss
  | .nullS _ => false
  | .exprS _ => false
  | .returnS _ => false
  | .breakS _ => false
  | .ifS _ t (some e) => containsLabel t || containsLabel e
  | .ifS _ t none => containsLabel t
  | .forS _ b => containsLabel b
  | .whileS _ b => containsLabel b
  | .doS _ b => containsLabel b
  | .rangeForS _ b => containsLabel b
  | .switchS _ b => containsLabel b
  | .caseS _ _ => true
  | .defaultS _ _ => true

/-- `containsLabel` over a sibling list. -/
def containsLabelL : List Stmt → Bool
  | [] => false
  | s :: ss => containsLabel s || containsLabelL ss

end

mutual

/-- The match events fired while the engine *expands* `n`:
`MatchASTVisitor::TraverseStmt` runs the matchers on a statement when it
is enqueued by its parent's expansion during `RecursiveASTVisitor`'s
LIFO data recursion.  An expanded node therefore reports its children
as one batch in sibling order (the freshly pushed entries are reversed
so the first child is popped next), and after a node's batch the full
expansion of its first child precedes the expansion of its second. -/
def batchesS : Stmt → List Stmt
  | .compound _ ss => ss ++ batchesL ss
  | .nullS _ => []
  | .exprS _ => []
  | .returnS _ => []
  | .breakS _ => []
  | .ifS _ t (some e) => [t, e] ++ (batchesS t ++ (batchesS e ++ []))
  | .ifS _ t none => [t] ++ (batchesS t ++ [])
  | .forS _ b => [b] ++ (batchesS b ++ [])
  | .whileS _ b => [b] ++ (batchesS b ++ [])
  | .doS _ b => [b] ++ (batchesS b ++ [])
  | .rangeForS _ b => [b] ++ (batchesS b ++ [])
  | .switchS _ b => [b] ++ (batchesS b ++ [])
  | .caseS _ b => [b] ++ (batchesS b ++ [])
  | .defaultS _ b => [b] ++ (batchesS b ++ [])

/-- Expansion of a sibling list: the first sibling's whole subtree is
expanded before the second sibling's. -/
def batchesL : List Stmt → List Stmt
  | [] => []
  | s :: ss => batchesS s ++ batchesL ss

end

theorem batchesS_eq (s : Stmt) :
    batchesS s = s.childrenOf ++ batchesL s.childrenOf := by
  cases s with
  | ifS i t e => cases e <;> simp [batchesS, batchesL, Stmt.childrenOf]
  | _ => simp [batchesS, batchesL, Stmt.childrenOf]

/-- The sequence of nodes, in callback order, for one translation-unit
statement tree rooted at `root`: the root is matched when its traversal
starts, and every other node when its parent is expanded.  This
enqueue-time order is consistent with the repository's instrumenter
tests (`DCEInstrumentTool switch`, marker ids 0..5). -/
def visitOrder (root : Stmt) : List Stmt := root :: batchesS root

/-- The `SourceManager`/`Lexer` services the engine consumes, read-only.
Locations are abstract byte offsets.  `tokenAt`/`isSemiAt` describe the
token starting at a (spelled) location; `nextTok` is
`Lexer::findNextToken` (`none` at end of file or from a macro location);
`valid` is `SourceLocation::isValid`; `buf` is the file id of
`getDecomposedLoc` (macro-expansion buffers included); `spell` is
`getSpellingLoc`; `fileOf` is `getFileID` of an already-spelled location;
`mainFile` is `getMainFileID`; `fileBegin` is
`getLocForStartOfFile(getMainFileID())`. -/
structure Src where
  tokenAt : Nat → String
  nextTok : Nat → Option Nat
  isSemiAt : Nat → Bool
  valid : Nat → Bool
  buf : Nat → Nat
  spell : Nat → Nat
  fileOf : Nat → Nat
  mainFile : Nat
  fileBegin : Nat

/-- The replacement texts the engine builds, kept structured; `render`
produces the exact strings the C++ code concatenates.  Each constructor
corresponds to one `addReplacementOrDie` call site:
`emptyBlock` for the null-statement body, `braceOpen` for the opening
brace spliced before a body's first token, `closeBraces` for the
end-of-traversal brace-debt flush, `entryProbe` for the probe call after
a block's `{`, `ftProbe` for the fall-through probe after a construct's
last token, `declsHeader` for the forward declarations at file start. -/
inductive EditText where
  | emptyBlock : EditText
  | braceOpen : String → EditText
  | closeBraces : String → Nat → EditText
  | entryProbe : Nat → EditText
  | ftProbe : String → Nat → EditText
  | declsHeader : Nat → String → EditText
  deriving Repr, DecidableEq

/-- `getNewDCECallStr`'s payload for marker `n` (the counter increment is
handled by the instrumenter state). -/
def dceCallStr (n : Nat) : String := "DCEMarker" ++ toString n ++ "_();"

/-- One forward declaration line of `onEndOfTranslationUnit`. -/
def dceDeclStr (n : Nat) : String :=
  "void DCEMarker" ++ toString n ++ "_(void);\n"

/-- The exact replacement string, as concatenated by the C++ code. -/
def EditText.render : EditText → String
  | .emptyBlock => "\x7b\x7d"
  | .braceOpen tok => "\x7b" ++ tok
  | .closeBraces tok n => tok ++ (List.replicate n '\x7d').asString
  | .entryProbe n => "\x7b\n" ++ dceCallStr n
  | .ftProbe tok n => tok ++ "\n" ++ dceCallStr n
  | .declsHeader n tok => String.join ((List.range n).map dceDeclStr) ++ tok

/-- A validated replacement: the token range at spelled location `loc` of
file `file` is rewritten to `text.render`. -/
structure Edit where
  file : Nat
  loc : Nat
  text : EditText
  deriving Repr, DecidableEq

/-- `createReplacement`: fails (diagnostic to `llvm::errs`, invalid
`Replacement` returned) when a location is invalid, when the two
locations decompose into different file ids, or when the spelled
locations lie in different files; otherwise builds the token-range
replacement at the spelled start location. -/
def createReplacement (O : Src) (startL endL : Nat) (text : EditText) :
    Option Edit :=
  if ¬ (O.valid startL ∧ O.valid endL) then none
  else if O.buf startL ≠ O.buf endL then none
  else if O.fileOf (O.spell startL) ≠ O.fileOf (O.spell endL) then none
  else some ⟨O.fileOf (O.spell startL), O.spell startL, text⟩

/-- The replacement-collection state shared by the tools:
`edits` is the per-file `Replacements` map restricted to validated
replacements (in insertion order); `diags` counts `createReplacement`
failures (each prints a diagnostic and files an inert invalid
replacement, which `Replacements::add` merges without error); `died` is
set when `Replacements::add` rejects a conflicting replacement, upon
which the C++ code dies in `llvm_unreachable`.  Two single-token ranges
conflict exactly when they rewrite the same spelled location of the same
file. -/
structure RepState where
  edits : List Edit
  diags : Nat
  died : Bool
  deriving Repr, DecidableEq

/-- The starting replacement state. -/
def RepState.init : RepState := ⟨[], 0, false⟩

/-- Whether the run so far aborted or logged a skipped replacement. -/
def RepState.clean (st : RepState) : Bool := !st.died && st.diags == 0

/-- `addReplacementOrDie`. -/
def addReplacementOrDie (O : Src) (st : RepState) (startL endL : Nat)
    (text : EditText) : RepState :=
  match createReplacement O startL endL text with
  | none => { st with diags := st.diags + 1 }
  | some e =>
    if st.edits.any fun e0 => e0.file == e.file && e0.loc == e.loc then
      { st with died := true }
    else
      { st with edits := st.edits ++ [e] }

/-! ## The Statement Canonicalizer (`DCECanonicalizerTool`) -/

/-- Insert-or-increment of the brace-debt map
`CurlyBracesInsertedAtLocation`, a `std::map<SourceLocation, size_t>`:
keys are kept sorted and unique. -/
def bumpDebt : List (Nat × Nat) → Nat → List (Nat × Nat)
  | [], l => [(l, 1)]
  | (k, d) :: rest, l =>
    if l < k then (l, 1) :: (k, d) :: rest
    else if l = k then (k, d + 1) :: rest
    else (k, d) :: bumpDebt rest l

/-- Canonicalizer state: the shared replacement state plus the brace-debt
map. -/
structure CanonState where
  rep : RepState
  debt : List (Nat × Nat)
  deriving Repr, DecidableEq

/-- The starting canonicalizer state. -/
def CanonState.init : CanonState := ⟨RepState.init, []⟩

/-- The end-boundary location used both by the canonicalizer's
`handleStmt` and the instrumenter's `handleStmtWithReturnDescendant`:
if the token following the statement's last token is a `;`, that
semicolon's location; otherwise `Lexer::GetBeginningOfToken` of the end
location, which is the end location itself since `getEndLoc` already
points at the start of the last token. -/
def endBoundary (O : Src) (endL : Nat) : Nat :=
  match O.nextTok endL with
  | some l => if O.isSemiAt l then l else endL
  | none => endL

/-- `DCECanonicalizerTool::handleStmt`, called on a body position:
skip if the body's begin spells outside the main file; skip compound
bodies; replace a null statement with an explicit empty block; otherwise
splice `{` before the body's first token (re-emitting that token) and
owe one closing brace at the body's end boundary. -/
def handleStmt (O : Src) (st : CanonState) (s : Stmt) : CanonState :=
  if O.fileOf (O.spell s.beginLoc) ≠ O.mainFile then st
  else if s.isCompound then st
  else if s.isNull then
    { st with rep := addReplacementOrDie O st.rep s.beginLoc s.beginLoc .emptyBlock }
  else
    let r1 := addReplacementOrDie O st.rep s.beginLoc s.beginLoc
      (.braceOpen (O.tokenAt (O.spell s.beginLoc)))
    { st with rep := r1, debt := bumpDebt st.debt (endBoundary O s.endLoc) }

/-- All matcher callbacks of `DCECanonicalizerTool` that fire at one
node, in registration order: the then-branch and else-branch of an `if`,
the body of each loop form, and the sub-statement of a `case`/`default`
label having no label among its descendants — each only when the node's
expansion location is in the main file (`isExpansionInMainFile`). -/
def canonNode (O : Src) (st : CanonState) (n : Stmt) : CanonState :=
  match n with
  | .ifS i t e =>
    if i.expFile = O.mainFile then
      let st1 := handleStmt O st t
      match e with
      | some els => handleStmt O st1 els
      | none => st1
    else st
  | .forS i b | .whileS i b | .doS i b | .rangeForS i b =>
    if i.expFile = O.mainFile then handleStmt O st b else st
  | .caseS i b | .defaultS i b =>
    if i.expFile = O.mainFile ∧ ¬ containsLabel b then handleStmt O st b
    else st
  | _ => st

/-- `DCECanonicalizerTool::onEndOfTranslationUnit`: for every owed
boundary location, one replacement re-emitting the token there followed
by the owed closing braces. -/
def canonFlush (O : Src) (st : CanonState) : CanonState :=
  { st with
    rep := st.debt.foldl (fun r (ld : Nat × Nat) =>
      addReplacementOrDie O r ld.1 ld.1
        (.closeBraces (O.tokenAt (O.spell ld.1)) ld.2)) st.rep }

/-- A full canonicalizer pass over one translation unit. -/
def canonicalize (O : Src) (root : Stmt) : CanonState :=
  canonFlush O ((visitOrder root).foldl (canonNode O) CanonState.init)

/-! ## The Marker Instrumenter (`DCEInstrumenterTool`) -/

/-- Instrumenter state: the shared replacement state plus the
`NFunctionsInserted` counter. -/
structure InstrState where
  rep : RepState
  counter : Nat
  deriving Repr, DecidableEq

/-- The starting instrumenter state. -/
def InstrState.init : InstrState := ⟨RepState.init, 0⟩

/-- `DCEInstrumenterTool::handleCompoundStmt`: allocate the next marker
and splice its call right after the block's `{` (the counter advances
even if `createReplacement` then fails). -/
def handleCompoundStmt (O : Src) (st : InstrState) (c : Stmt) : InstrState :=
  ⟨addReplacementOrDie O st.rep c.beginLoc c.beginLoc (.entryProbe st.counter),
   st.counter + 1⟩

/-- `DCEInstrumenterTool::handleStmtWithReturnDescendant`: skip if the
construct's end spells outside the main file; otherwise allocate the next
marker and splice its call right after the token at the construct's end
boundary. -/
def handleFt (O : Src) (st : InstrState) (n : Stmt) : InstrState :=
  if O.fileOf (O.spell n.endLoc) ≠ O.mainFile then st
  else
    let eb := endBoundary O n.endLoc
    ⟨addReplacementOrDie O st.rep eb eb
        (.ftProbe (O.tokenAt (O.spell eb)) st.counter),
     st.counter + 1⟩

/-- All matcher callbacks of `DCEInstrumenterTool` that fire at one node,
in registration order: entry probes for compound then/else branches and
compound loop bodies, entry probes for the compound sub-statement of a
matched `case`/`default` label (a non-compound sub-statement fails the
`dyn_cast` and is passed over), and — registered last — the fall-through
probe for an `if`/loop/`switch` with a `return` descendant.  Every
matcher requires the node's expansion location in the main file. -/
def instrNode (O : Src) (st : InstrState) (n : Stmt) : InstrState :=
  match n with
  | .ifS i t e =>
    let st1 := if i.expFile = O.mainFile ∧ t.isCompound
      then handleCompoundStmt O st t else st
    let st2 := match e with
      | some els =>
        if i.expFile = O.mainFile ∧ els.isCompound
        then handleCompoundStmt O st1 els else st1
      | none => st1
    if i.expFile = O.mainFile ∧ containsReturnL (childrenOf n)
    then handleFt O st2 n else st2
  | .forS i b | .whileS i b | .doS i b | .rangeForS i b =>
    let st1 := if i.expFile = O.mainFile ∧ b.isCompound
      then handleCompoundStmt O st b else st
    if i.expFile = O.mainFile ∧ containsReturnL (childrenOf n)
    then handleFt O st1 n else st1
  | .switchS i _ =>
    if i.expFile = O.mainFile ∧ containsReturnL (childrenOf n)
    then handleFt O st n else st
  | .caseS i b | .defaultS i b =>
    if i.expFile = O.mainFile ∧ ¬ containsLabel b then
      if b.isCompound then handleCompoundStmt O st b else st
    else st
  | _ => st

/-- `DCEInstrumenterTool::onEndOfTranslationUnit`: nothing if no marker
was allocated; otherwise one replacement at the start of the main file,
re-emitting its first token after the ascending forward declarations. -/
def instrEnd (O : Src) (st : InstrState) : InstrState :=
  if st.counter = 0 then st
  else
    let r1 := addReplacementOrDie O st.rep O.fileBegin O.fileBegin
      (.declsHeader st.counter (O.tokenAt (O.spell O.fileBegin)))
    { st with rep := r1 }

/-- A full instrumenter pass over one translation unit (the input is
expected to be canonicalized already). -/
def instrument (O : Src) (root : Stmt) : InstrState :=
  instrEnd O ((visitOrder root).foldl (instrNode O) InstrState.init)

/-! ## Derived descriptions of the per-node behaviour

The following definitions are bookkeeping for the proofs: they record,
for one node, which replacements the callbacks at that node attempt, and
are proved to coincide with what `canonNode`/`instrNode` do. -/

/-- Whether a statement is a `case` or `default` label. -/
def isLabel : Stmt → Bool
  | .caseS _ _ => true
  | .defaultS _ _ => true
  | _ => false

/-- The marker id of a probe-call edit text. -/
def callId : EditText → Option Nat
  | .entryProbe n => some n
  | .ftProbe _ n => some n
  | _ => none

/-- The marker ids of the probe-call edits, in edit order. -/
def callIds (es : List Edit) : List Nat := es.filterMap fun e => callId e.text

/-- Entry-probe edit recognizer. -/
def isEntryText : EditText → Bool
  | .entryProbe _ => true
  | _ => false

/-- Fall-through-probe edit recognizer. -/
def isFtText : EditText → Bool
  | .ftProbe _ _ => true
  | _ => false

/-- Forward-declaration-header edit recognizer. -/
def isDeclsText : EditText → Bool
  | .declsHeader _ _ => true
  | _ => false

/-- The location of an entry-probe edit. -/
def entryLocOf (e : Edit) : Option Nat :=
  match e.text with
  | .entryProbe _ => some e.loc
  | _ => none

/-- An instrumenter replacement attempt, minus the marker id (which
depends on the counter at the moment the site is visited). -/
inductive ProbeKind where
  | entry : ProbeKind
  | ft : String → ProbeKind
  deriving Repr, DecidableEq

/-- File, spelled location and kind of one attempted probe replacement. -/
structure ProbeSpec where
  file : Nat
  loc : Nat
  kind : ProbeKind
  deriving Repr, DecidableEq

/-- The edit a probe attempt produces once marker `k` is allocated. -/
def ProbeSpec.toEdit (sp : ProbeSpec) (k : Nat) : Edit :=
  match sp.kind with
  | .entry => ⟨sp.file, sp.loc, .entryProbe k⟩
  | .ft tok => ⟨sp.file, sp.loc, .ftProbe tok k⟩

/-- The entry-probe attempt for a compound body. -/
def entrySpec (O : Src) (c : Stmt) : ProbeSpec :=
  ⟨O.fileOf (O.spell c.beginLoc), O.spell c.beginLoc, .entry⟩

/-- The fall-through-probe attempt for a construct. -/
def ftSpec (O : Src) (n : Stmt) : ProbeSpec :=
  ⟨O.fileOf (O.spell (endBoundary O n.endLoc)),
   O.spell (endBoundary O n.endLoc),
   .ft (O.tokenAt (O.spell (endBoundary O n.endLoc)))⟩

/-- The probe replacements attempted by the callbacks firing at one node,
in order (entry probes of the branches/bodies first, the fall-through
probe — whose matcher is registered last — afterwards). -/
def nodeProbeSpecs (O : Src) (n : Stmt) : List ProbeSpec :=
  match n with
  | .ifS i t e =>
    (if i.expFile = O.mainFile ∧ t.isCompound then [entrySpec O t] else []) ++
    ((match e with
      | some els =>
        if i.expFile = O.mainFile ∧ els.isCompound then [entrySpec O els]
        else []
      | none => []) ++
    (if (i.expFile = O.mainFile ∧ containsReturnL n.childrenOf)
        ∧ O.fileOf (O.spell n.endLoc) = O.mainFile
     then [ftSpec O n] else []))
  | .forS i b | .whileS i b | .doS i b | .rangeForS i b =>
    (if i.expFile = O.mainFile ∧ b.isCompound then [entrySpec O b] else []) ++
    (if (i.expFile = O.mainFile ∧ containsReturnL n.childrenOf)
        ∧ O.fileOf (O.spell n.endLoc) = O.mainFile
     then [ftSpec O n] else [])
  | .switchS i _ =>
    if (i.expFile = O.mainFile ∧ containsReturnL n.childrenOf)
        ∧ O.fileOf (O.spell n.endLoc) = O.mainFile
    then [ftSpec O n] else []
  | .caseS i b | .defaultS i b =>
    if i.expFile = O.mainFile ∧ ¬ containsLabel b then
      (if b.isCompound then [entrySpec O b] else [])
    else []
  | _ => []

/-- The probe edits produced by a run of attempts starting at counter
`c`: consecutive marker ids. -/
def buildEdits (c : Nat) : List ProbeSpec → List Edit
  | [] => []
  | sp :: rest => sp.toEdit c :: buildEdits (c + 1) rest

/-- The entry-probe anchor locations among a node's attempts. -/
def entryAnchors (O : Src) (n : Stmt) : List Nat :=
  (nodeProbeSpecs O n).filterMap fun sp =>
    match sp.kind with
    | .entry => some sp.loc
    | .ft _ => none

/-- A canonicalizer action: a replacement attempt or a brace-debt bump. -/
inductive CAct where
  | edit : Nat → Nat → EditText → CAct
  | bump : Nat → CAct
  deriving Repr, DecidableEq

/-- The replacement of an edit action. -/
def CAct.editPart : CAct → Option Edit
  | .edit f l t => some ⟨f, l, t⟩
  | .bump _ => none

/-- The actions `handleStmt` performs on a body position. -/
def handleStmtActs (O : Src) (s : Stmt) : List CAct :=
  if O.fileOf (O.spell s.beginLoc) ≠ O.mainFile then []
  else if s.isCompound then []
  else if s.isNull then
    [.edit (O.fileOf (O.spell s.beginLoc)) (O.spell s.beginLoc) .emptyBlock]
  else
    [.edit (O.fileOf (O.spell s.beginLoc)) (O.spell s.beginLoc)
       (.braceOpen (O.tokenAt (O.spell s.beginLoc))),
     .bump (endBoundary O s.endLoc)]

/-- The actions of all canonicalizer callbacks firing at one node. -/
def canonActs (O : Src) (n : Stmt) : List CAct :=
  match n with
  | .ifS i t e =>
    if i.expFile = O.mainFile then
      handleStmtActs O t ++
        (match e with
         | some els => handleStmtActs O els
         | none => [])
    else []
  | .forS i b | .whileS i b | .doS i b | .rangeForS i b =>
    if i.expFile = O.mainFile then handleStmtActs O b else []
  | .caseS i b | .defaultS i b =>
    if i.expFile = O.mainFile ∧ ¬ containsLabel b then handleStmtActs O b
    else []
  | _ => []

/-- Total debt owed at location `l` (sum over the map's entries). -/
def debtCount (l : Nat) (d : List (Nat × Nat)) : Nat :=
  (d.map fun p => if p.1 = l then p.2 else 0).sum

section Collect

variable {A : Type}

mutual

/-- Depth-first (pre-order) collection of `f` over a statement tree. -/
def collectT (f : Stmt → List A) : Stmt → List A
  | .compound i ss => f (.compound i ss) ++ collectTL f ss
  | .nullS i => f (.nullS i) ++ []
  | .exprS i => f (.exprS i) ++ []
  | .returnS i => f (.returnS i) ++ []
  | .breakS i => f (.breakS i) ++ []
  | .ifS i t (some e) => f (.ifS i t (some e)) ++ (collectT f t ++ (collectT f e ++ []))
  | .ifS i t none => f (.ifS i t none) ++ (collectT f t ++ [])
  | .forS i b => f (.forS i b) ++ (collectT f b ++ [])
  | .whileS i b => f (.whileS i b) ++ (collectT f b ++ [])
  | .doS i b => f (.doS i b) ++ (collectT f b ++ [])
  | .rangeForS i b => f (.rangeForS i b) ++ (collectT f b ++ [])
  | .switchS i b => f (.switchS i b) ++ (collectT f b ++ [])
  | .caseS i b => f (.caseS i b) ++ (collectT f b ++ [])
  | .defaultS i b => f (.defaultS i b) ++ (collectT f b ++ [])

/-- `collectT` over a sibling list. -/
def collectTL (f : Stmt → List A) : List Stmt → List A
  | [] => []
  | s :: ss => collectT f s ++ collectTL f ss

end

theorem collectT_eq (f : Stmt → List A) (s : Stmt) :
    collectT f s = f s ++ collectTL f s.childrenOf := by
  cases s with
  | ifS i t e =>
    cases e <;> simp [collectT, collectTL, Stmt.childrenOf]
  | _ => simp [collectT, collectTL, Stmt.childrenOf]

theorem collectTL_append (f : Stmt → List A) (xs ys : List Stmt) :
    collectTL f (xs ++ ys) = collectTL f xs ++ collectTL f ys := by
  induction xs with
  | nil => simp [collectTL]
  | cons s ss ih => simp [collectTL, ih]

/-- Four append blocks, middle two swapped, up to permutation. -/
theorem perm_middle_swap {B : Type} (p q r t : List B) :
    ((p ++ q) ++ (r ++ t)).Perm ((p ++ r) ++ (q ++ t)) := by
  simp only [List.append_assoc]
  refine List.Perm.append_left p ?_
  rw [← List.append_assoc, ← List.append_assoc]
  exact List.Perm.append_right t List.perm_append_comm

mutual

/-- The expansion of one node collects the same multiset as the
depth-first collection over its children. -/
theorem batchS_fperm (f : Stmt → List A) (n : Stmt) :
    ((batchesS n).flatMap f).Perm (collectTL f n.childrenOf) := by
  cases n with
  | compound i ss =>
    show ((ss ++ batchesL ss).flatMap f).Perm (collectTL f ss)
    rw [List.flatMap_append]
    exact batchL_fperm f ss
  | nullS i => exact List.Perm.refl []
  | exprS i => exact List.Perm.refl []
  | returnS i => exact List.Perm.refl []
  | breakS i => exact List.Perm.refl []
  | ifS i t e =>
    cases e with
    | none =>
      show (([t] ++ (batchesS t ++ [])).flatMap f).Perm (collectTL f [t])
      simp only [List.flatMap_append, List.flatMap_cons, List.flatMap_nil,
        List.append_nil, collectTL]
      rw [collectT_eq]
      exact List.Perm.append_left (f t) (batchS_fperm f t)
    | some els =>
      show (([t, els] ++ (batchesS t ++ (batchesS els ++ []))).flatMap f).Perm
        (collectTL f [t, els])
      simp only [List.flatMap_append, List.flatMap_cons, List.flatMap_nil,
        List.append_nil, collectTL]
      refine (perm_middle_swap (f t) (f els) ((batchesS t).flatMap f)
        ((batchesS els).flatMap f)).trans ?_
      rw [collectT_eq, collectT_eq]
      exact List.Perm.append (List.Perm.append_left (f t) (batchS_fperm f t))
        (List.Perm.append_left (f els) (batchS_fperm f els))
  | forS i b =>
    show (([b] ++ (batchesS b ++ [])).flatMap f).Perm (collectTL f [b])
    simp only [List.flatMap_append, List.flatMap_cons, List.flatMap_nil,
      List.append_nil, collectTL]
    rw [collectT_eq]
    exact List.Perm.append_left (f b) (batchS_fperm f b)
  | whileS i b =>
    show (([b] ++ (batchesS b ++ [])).flatMap f).Perm (collectTL f [b])
    simp only [List.flatMap_append, List.flatMap_cons, List.flatMap_nil,
      List.append_nil, collectTL]
    rw [collectT_eq]
    exact List.Perm.append_left (f b) (batchS_fperm f b)
  | doS i b =>
    show (([b] ++ (batchesS b ++ [])).flatMap f).Perm (collectTL f [b])
    simp only [List.flatMap_append, List.flatMap_cons, List.flatMap_nil,
      List.append_nil, collectTL]
    rw [collectT_eq]
    exact List.Perm.append_left (f b) (batchS_fperm f b)
  | rangeForS i b =>
    show (([b] ++ (batchesS b ++ [])).flatMap f).Perm (collectTL f [b])
    simp only [List.flatMap_append, List.flatMap_cons, List.flatMap_nil,
      List.append_nil, collectTL]
    rw [collectT_eq]
    exact List.Perm.append_left (f b) (batchS_fperm f b)
  | switchS i b =>
    show (([b] ++ (batchesS b ++ [])).flatMap f).Perm (collectTL f [b])
    simp only [List.flatMap_append, List.flatMap_cons, List.flatMap_nil,
      List.append_nil, collectTL]
    rw [collectT_eq]
    exact List.Perm.append_left (f b) (batchS_fperm f b)
  | caseS i b =>
    show (([b] ++ (batchesS b ++ [])).flatMap f).Perm (collectTL f [b])
    simp only [List.flatMap_append, List.flatMap_cons, List.flatMap_nil,
      List.append_nil, collectTL]
    rw [collectT_eq]
    exact List.Perm.append_left (f b) (batchS_fperm f b)
  | defaultS i b =>
    show (([b] ++ (batchesS b ++ [])).flatMap f).Perm (collectTL f [b])
    simp only [List.flatMap_append, List.flatMap_cons, List.flatMap_nil,
      List.append_nil, collectTL]
    rw [collectT_eq]
    exact List.Perm.append_left (f b) (batchS_fperm f b)

/-- The contributions of a sibling list followed by its expansion
collect the same multiset as the depth-first collection over the
list. -/
theorem batchL_fperm (f : Stmt → List A) (l : List Stmt) :
    ((l.flatMap f) ++ (batchesL l).flatMap f).Perm (collectTL f l) := by
  cases l with
  | nil => simp [batchesL, collectTL]
  | cons c cs =>
    show ((f c ++ cs.flatMap f) ++
        ((batchesS c ++ batchesL cs).flatMap f)).Perm
      (collectT f c ++ collectTL f cs)
    rw [List.flatMap_append]
    refine (perm_middle_swap (f c) (cs.flatMap f) ((batchesS c).flatMap f)
      ((batchesL cs).flatMap f)).trans ?_
    rw [collectT_eq]
    exact List.Perm.append (List.Perm.append_left (f c) (batchS_fperm f c))
      (batchL_fperm f cs)

end

/-- The depth-first collection over the visit order of a tree. -/
theorem visitOrder_flatMap_perm (f : Stmt → List A) (root : Stmt) :
    ((visitOrder root).flatMap f).Perm (collectT f root) := by
  show ((root :: batchesS root).flatMap f).Perm (collectT f root)
  rw [List.flatMap_cons, collectT_eq]
  exact List.Perm.append_left (f root) (batchS_fperm f root)

mutual

/-- Hereditary properties hold of every node reported while expanding a
node they hold of. -/
theorem batchS_forall (P : Stmt → Prop)
    (hP : ∀ s, P s → ∀ c ∈ s.childrenOf, P c) :
    ∀ n, P n → ∀ m ∈ batchesS n, P m := by
  intro n hn m hm
  cases n with
  | compound i ss =>
    rw [show batchesS (.compound i ss) = ss ++ batchesL ss from rfl,
      List.mem_append] at hm
    rcases hm with hm | hm
    · exact hP _ hn m hm
    · exact batchL_forall P hP ss (hP _ hn) m hm
  | nullS i => simp [batchesS] at hm
  | exprS i => simp [batchesS] at hm
  | returnS i => simp [batchesS] at hm
  | breakS i => simp [batchesS] at hm
  | ifS i t e =>
    cases e with
    | none =>
      rw [show batchesS (.ifS i t none) = [t] ++ (batchesS t ++ [])
        from rfl] at hm
      simp only [List.append_nil, List.singleton_append,
        List.mem_cons] at hm
      rcases hm with rfl | hm
      · exact hP _ hn m (by simp [Stmt.childrenOf])
      · exact batchS_forall P hP t (hP _ hn t (by simp [Stmt.childrenOf]))
          m hm
    | some els =>
      rw [show batchesS (.ifS i t (some els)) =
        [t, els] ++ (batchesS t ++ (batchesS els ++ [])) from rfl] at hm
      simp only [List.append_nil, List.cons_append, List.nil_append,
        List.mem_cons, List.mem_append] at hm
      rcases hm with rfl | rfl | hm | hm
      · exact hP _ hn m (by simp [Stmt.childrenOf])
      · exact hP _ hn m (by simp [Stmt.childrenOf])
      · exact batchS_forall P hP t (hP _ hn t (by simp [Stmt.childrenOf]))
          m hm
      · exact batchS_forall P hP els
          (hP _ hn els (by simp [Stmt.childrenOf])) m hm
  | forS i b =>
    rw [show batchesS (.forS i b) = [b] ++ (batchesS b ++ [])
      from rfl] at hm
    simp only [List.append_nil, List.singleton_append, List.mem_cons] at hm
    rcases hm with rfl | hm
    · exact hP _ hn m (by simp [Stmt.childrenOf])
    · exact batchS_forall P hP b (hP _ hn b (by simp [Stmt.childrenOf]))
        m hm
  | whileS i b =>
    rw [show batchesS (.whileS i b) = [b] ++ (batchesS b ++ [])
      from rfl] at hm
    simp only [List.append_nil, List.singleton_append, List.mem_cons] at hm
    rcases hm with rfl | hm
    · exact hP _ hn m (by simp [Stmt.childrenOf])
    · exact batchS_forall P hP b (hP _ hn b (by simp [Stmt.childrenOf]))
        m hm
  | doS i b =>
    rw [show batchesS (.doS i b) = [b] ++ (batchesS b ++ [])
      from rfl] at hm
    simp only [List.append_nil, List.singleton_append, List.mem_cons] at hm
    rcases hm with rfl | hm
    · exact hP _ hn m (by simp [Stmt.childrenOf])
    · exact batchS_forall P hP b (hP _ hn b (by simp [Stmt.childrenOf]))
        m hm
  | rangeForS i b =>
    rw [show batchesS (.rangeForS i b) = [b] ++ (batchesS b ++ [])
      from rfl] at hm
    simp only [List.append_nil, List.singleton_append, List.mem_cons] at hm
    rcases hm with rfl | hm
    · exact hP _ hn m (by simp [Stmt.childrenOf])
    · exact batchS_forall P hP b (hP _ hn b (by simp [Stmt.childrenOf]))
        m hm
  | switchS i b =>
    rw [show batchesS (.switchS i b) = [b] ++ (batchesS b ++ [])
      from rfl] at hm
    simp only [List.append_nil, List.singleton_append, List.mem_cons] at hm
    rcases hm with rfl | hm
    · exact hP _ hn m (by simp [Stmt.childrenOf])
    · exact batchS_forall P hP b (hP _ hn b (by simp [Stmt.childrenOf]))
        m hm
  | caseS i b =>
    rw [show batchesS (.caseS i b) = [b] ++ (batchesS b ++ [])
      from rfl] at hm
    simp only [List.append_nil, List.singleton_append, List.mem_cons] at hm
    rcases hm with rfl | hm
    · exact hP _ hn m (by simp [Stmt.childrenOf])
    · exact batchS_forall P hP b (hP _ hn b (by simp [Stmt.childrenOf]))
        m hm
  | defaultS i b =>
    rw [show batchesS (.defaultS i b) = [b] ++ (batchesS b ++ [])
      from rfl] at hm
    simp only [List.append_nil, List.singleton_append, List.mem_cons] at hm
    rcases hm with rfl | hm
    · exact hP _ hn m (by simp [Stmt.childrenOf])
    · exact batchS_forall P hP b (hP _ hn b (by simp [Stmt.childrenOf]))
        m hm

/-- Hereditary properties hold of every node reported while expanding a
sibling list they hold of. -/
theorem batchL_forall (P : Stmt → Prop)
    (hP : ∀ s, P s → ∀ c ∈ s.childrenOf, P c) :
    ∀ l, (∀ s ∈ l, P s) → ∀ m ∈ batchesL l, P m := by
  intro l
  cases l with
  | nil => intro _ m hm; simp [batchesL] at hm
  | cons c cs =>
    intro hl m hm
    rw [show batchesL (c :: cs) = batchesS c ++ batchesL cs from rfl,
      List.mem_append] at hm
    rcases hm with hm | hm
    · exact batchS_forall P hP c (hl c (by simp)) m hm
    · exact batchL_forall P hP cs (fun s hs => hl s (by simp [hs])) m hm

end

/-- Hereditary properties hold of every visited node. -/
theorem visitOrder_forall (P : Stmt → Prop)
    (hP : ∀ s, P s → ∀ c ∈ s.childrenOf, P c) (root : Stmt)
    (hr : P root) : ∀ n ∈ visitOrder root, P n := by
  intro n hn
  rcases List.mem_cons.mp hn with rfl | hn
  · exact hr
  · exact batchS_forall P hP root hr n hn

/-- A node whose list-valued measure is empty everywhere in a tree. -/
theorem visitOrder_forall_nil (f : Stmt → List A) (root : Stmt)
    (h : collectT f root = []) : ∀ n ∈ visitOrder root, f n = [] := by
  intro n hn
  have hperm := visitOrder_flatMap_perm f root
  rw [h] at hperm
  have hnil : (visitOrder root).flatMap f = [] := List.Perm.eq_nil hperm
  rw [List.flatMap_eq_nil_iff] at hnil
  exact hnil n hn

end Collect

/-! ## Replacement-state lemmas -/

/-- When all of `createReplacement`'s guards pass, the replacement it
builds. -/
theorem createReplacement_ok (O : Src) (s e : Nat) (t : EditText)
    (hvs : O.valid s = true) (hve : O.valid e = true)
    (hbuf : O.buf s = O.buf e)
    (hfile : O.fileOf (O.spell s) = O.fileOf (O.spell e)) :
    createReplacement O s e t = some ⟨O.fileOf (O.spell s), O.spell s, t⟩ := by
  simp [createReplacement, hvs, hve, hbuf, hfile]

/-- A same-location replacement always passes the range guards. -/
theorem createReplacement_point (O : Src) (s : Nat) (t : EditText)
    (hvs : O.valid s = true) :
    createReplacement O s s t = some ⟨O.fileOf (O.spell s), O.spell s, t⟩ :=
  createReplacement_ok O s s t hvs hvs rfl rfl

/-- The replacement a successful `createReplacement` yields. -/
theorem createReplacement_some (O : Src) {s e : Nat} {t : EditText}
    {ed : Edit} (h : createReplacement O s e t = some ed) :
    ed = ⟨O.fileOf (O.spell s), O.spell s, t⟩ := by
  unfold createReplacement at h
  split at h
  · simp at h
  · split at h
    · simp at h
    · split at h
      · simp at h
      · simpa using h.symm

/-- Unfolding equation of `addReplacementOrDie` on a failed
`createReplacement`. -/
theorem addRep_eq_none (O : Src) (st : RepState) {s e : Nat} {t : EditText}
    (hc : createReplacement O s e t = none) :
    addReplacementOrDie O st s e t = { st with diags := st.diags + 1 } := by
  unfold addReplacementOrDie
  rw [hc]

/-- Unfolding equation of `addReplacementOrDie` on a successful
`createReplacement`. -/
theorem addRep_eq_some (O : Src) (st : RepState) {s e : Nat} {t : EditText}
    {ed : Edit} (hc : createReplacement O s e t = some ed) :
    addReplacementOrDie O st s e t =
      if st.edits.any fun e0 => e0.file == ed.file && e0.loc == ed.loc then
        { st with died := true }
      else { st with edits := st.edits ++ [ed] } := by
  unfold addReplacementOrDie
  rw [hc]

/-- If the state after `addReplacementOrDie` is clean then the input was
clean and the replacement was validated and appended. -/
theorem addRep_clean (O : Src) (st : RepState) (s e : Nat) (t : EditText)
    (h : (addReplacementOrDie O st s e t).clean = true) :
    st.clean = true ∧
    (addReplacementOrDie O st s e t).edits =
      st.edits ++ [⟨O.fileOf (O.spell s), O.spell s, t⟩] ∧
    (addReplacementOrDie O st s e t).diags = st.diags ∧
    (addReplacementOrDie O st s e t).died = st.died := by
  cases hc : createReplacement O s e t with
  | none =>
    rw [addRep_eq_none O st hc] at h
    simp [RepState.clean] at h
  | some ed =>
    have hed := createReplacement_some O hc
    subst hed
    rw [addRep_eq_some O st hc] at h ⊢
    by_cases hcol : st.edits.any fun e0 =>
        e0.file == O.fileOf (O.spell s) && e0.loc == O.spell s
    · simp only [hcol, if_true] at h
      simp [RepState.clean] at h
    · simp only [hcol, Bool.false_eq_true, if_false] at h ⊢
      exact ⟨h, trivial, trivial, trivial⟩

/-- `addReplacementOrDie` never lowers the diagnostic count and never
clears the abort flag. -/
theorem addRep_mono (O : Src) (st : RepState) (s e : Nat) (t : EditText) :
    st.diags ≤ (addReplacementOrDie O st s e t).diags ∧
    (st.died = true → (addReplacementOrDie O st s e t).died = true) := by
  cases hc : createReplacement O s e t with
  | none => rw [addRep_eq_none O st hc]; simp
  | some ed =>
    rw [addRep_eq_some O st hc]
    by_cases hcol : st.edits.any fun e0 => e0.file == ed.file && e0.loc == ed.loc <;>
      simp [hcol]

/-- If `addReplacementOrDie` ends clean the input was clean. -/
theorem clean_of_addRep (O : Src) (st : RepState) (s e : Nat) (t : EditText)
    (h : (addReplacementOrDie O st s e t).clean = true) : st.clean = true :=
  (addRep_clean O st s e t h).1

/-- Pairwise distinctness of (file, location) among collected edits. -/
def EditsPD (es : List Edit) : Prop :=
  es.Pairwise fun a b => ¬(a.file = b.file ∧ a.loc = b.loc)

/-- `addReplacementOrDie` preserves pairwise distinctness: a colliding
replacement trips the abort flag instead of being recorded. -/
theorem addRep_pd (O : Src) (st : RepState) (s e : Nat) (t : EditText)
    (h : EditsPD st.edits) :
    EditsPD (addReplacementOrDie O st s e t).edits := by
  cases hc : createReplacement O s e t with
  | none => rw [addRep_eq_none O st hc]; exact h
  | some ed =>
    rw [addRep_eq_some O st hc]
    by_cases hcol : st.edits.any fun e0 => e0.file == ed.file && e0.loc == ed.loc
    · simpa [hcol] using h
    · simp only [hcol, Bool.false_eq_true, if_false]
      simp only [Bool.not_eq_true, List.any_eq_false] at hcol
      unfold EditsPD
      rw [List.pairwise_append]
      refine ⟨h, by simp [EditsPD], ?_⟩
      intro a ha b hb
      have hfalse := hcol a ha
      rw [List.mem_singleton] at hb
      subst hb
      intro hab
      simp [hab.1, hab.2] at hfalse

/-! ## Instrumenter step characterization -/

/-- Two instrumenter states related by a clean run of probe attempts:
the attempted probes were appended with consecutive marker ids starting
at the incoming counter, and no diagnostic or abort happened. -/
def SpecStep (st st' : InstrState) (specs : List ProbeSpec) : Prop :=
  st'.rep.edits = st.rep.edits ++ buildEdits st.counter specs ∧
  st'.counter = st.counter + specs.length ∧
  st'.rep.diags = st.rep.diags ∧
  st'.rep.died = st.rep.died

theorem buildEdits_append (c : Nat) (xs ys : List ProbeSpec) :
    buildEdits c (xs ++ ys) =
      buildEdits c xs ++ buildEdits (c + xs.length) ys := by
  induction xs generalizing c with
  | nil => simp [buildEdits]
  | cons sp rest ih =>
    have harith : c + 1 + rest.length = c + (rest.length + 1) := by omega
    simp [buildEdits, ih, harith]

theorem specStep_refl (st : InstrState) : SpecStep st st [] :=
  ⟨by simp [buildEdits], by simp, rfl, rfl⟩

theorem specStep_trans {st1 st2 st3 : InstrState}
    {l1 l2 : List ProbeSpec} (h1 : SpecStep st1 st2 l1)
    (h2 : SpecStep st2 st3 l2) : SpecStep st1 st3 (l1 ++ l2) := by
  obtain ⟨e1, c1, d1, x1⟩ := h1
  obtain ⟨e2, c2, d2, x2⟩ := h2
  refine ⟨?_, ?_, ?_, ?_⟩
  · rw [e2, e1, c1, buildEdits_append, List.append_assoc]
  · rw [c2, c1, List.length_append]; omega
  · rw [d2, d1]
  · rw [x2, x1]

theorem handleCompound_spec (O : Src) (st : InstrState) (c : Stmt)
    (h : (handleCompoundStmt O st c).rep.clean = true) :
    SpecStep st (handleCompoundStmt O st c) [entrySpec O c] := by
  have hh := addRep_clean O st.rep c.beginLoc c.beginLoc
    (.entryProbe st.counter) h
  refine ⟨?_, by simp [handleCompoundStmt], hh.2.2.1, hh.2.2.2⟩
  show (addReplacementOrDie O st.rep c.beginLoc c.beginLoc
      (.entryProbe st.counter)).edits = _
  rw [hh.2.1]
  simp [buildEdits, entrySpec, ProbeSpec.toEdit]

theorem clean_of_handleCompound (O : Src) (st : InstrState) (c : Stmt)
    (h : (handleCompoundStmt O st c).rep.clean = true) :
    st.rep.clean = true :=
  (addRep_clean O st.rep c.beginLoc c.beginLoc (.entryProbe st.counter) h).1

theorem handleFt_skip (O : Src) (st : InstrState) (n : Stmt)
    (hg : O.fileOf (O.spell n.endLoc) ≠ O.mainFile) :
    handleFt O st n = st := by
  unfold handleFt
  rw [if_pos hg]

theorem handleFt_go (O : Src) (st : InstrState) (n : Stmt)
    (hg : O.fileOf (O.spell n.endLoc) = O.mainFile)
    (h : (handleFt O st n).rep.clean = true) :
    SpecStep st (handleFt O st n) [ftSpec O n] := by
  unfold handleFt at h ⊢
  rw [if_neg (by simpa using hg)] at h ⊢
  have hh := addRep_clean O st.rep (endBoundary O n.endLoc)
    (endBoundary O n.endLoc)
    (.ftProbe (O.tokenAt (O.spell (endBoundary O n.endLoc))) st.counter) h
  refine ⟨?_, by simp, hh.2.2.1, hh.2.2.2⟩
  show (addReplacementOrDie O st.rep _ _ _).edits = _
  rw [hh.2.1]
  simp [buildEdits, ftSpec, ProbeSpec.toEdit]

theorem clean_of_handleFt (O : Src) (st : InstrState) (n : Stmt)
    (h : (handleFt O st n).rep.clean = true) : st.rep.clean = true := by
  unfold handleFt at h
  split at h
  · exact h
  · exact (addRep_clean O st.rep _ _ _ h).1

theorem entryCond_spec (O : Src) (st : InstrState) (c : Prop) [Decidable c]
    (b : Stmt)
    (h : (if c then handleCompoundStmt O st b else st).rep.clean = true) :
    SpecStep st (if c then handleCompoundStmt O st b else st)
      (if c then [entrySpec O b] else []) := by
  by_cases hc : c
  · rw [if_pos hc] at h ⊢
    rw [if_pos hc]
    exact handleCompound_spec O st b h
  · rw [if_neg hc, if_neg hc]
    exact specStep_refl st

theorem entryCond_clean (O : Src) (st : InstrState) (c : Prop) [Decidable c]
    (b : Stmt)
    (h : (if c then handleCompoundStmt O st b else st).rep.clean = true) :
    st.rep.clean = true := by
  by_cases hc : c
  · rw [if_pos hc] at h
    exact clean_of_handleCompound O st b h
  · rwa [if_neg hc] at h

theorem ftCond_spec (O : Src) (st : InstrState) (c : Prop) [Decidable c]
    (n : Stmt)
    (h : (if c then handleFt O st n else st).rep.clean = true) :
    SpecStep st (if c then handleFt O st n else st)
      (if c ∧ O.fileOf (O.spell n.endLoc) = O.mainFile
       then [ftSpec O n] else []) := by
  by_cases hc : c
  · rw [if_pos hc] at h ⊢
    by_cases hg : O.fileOf (O.spell n.endLoc) = O.mainFile
    · rw [if_pos ⟨hc, hg⟩]
      exact handleFt_go O st n hg h
    · rw [handleFt_skip O st n hg, if_neg (by tauto)]
      exact specStep_refl st
  · rw [if_neg hc, if_neg (by tauto)]
    exact specStep_refl st

theorem ftCond_clean (O : Src) (st : InstrState) (c : Prop) [Decidable c]
    (n : Stmt)
    (h : (if c then handleFt O st n else st).rep.clean = true) :
    st.rep.clean = true := by
  by_cases hc : c
  · rw [if_pos hc] at h
    exact clean_of_handleFt O st n h
  · rwa [if_neg hc] at h

/-- Entry phase then fall-through phase, as performed at every loop
node. -/
theorem twoPhase_spec (O : Src) (st : InstrState) (c1 c2 : Prop)
    [Decidable c1] [Decidable c2] (b n : Stmt)
    (h : (if c2 then handleFt O (if c1 then handleCompoundStmt O st b else st) n
          else (if c1 then handleCompoundStmt O st b else st)).rep.clean
        = true) :
    SpecStep st
      (if c2 then handleFt O (if c1 then handleCompoundStmt O st b else st) n
       else (if c1 then handleCompoundStmt O st b else st))
      ((if c1 then [entrySpec O b] else []) ++
        (if c2 ∧ O.fileOf (O.spell n.endLoc) = O.mainFile
         then [ftSpec O n] else [])) := by
  have h1 : (if c1 then handleCompoundStmt O st b else st).rep.clean = true :=
    ftCond_clean O _ c2 n h
  exact specStep_trans (entryCond_spec O st c1 b h1) (ftCond_spec O _ c2 n h)

theorem twoPhase_clean (O : Src) (st : InstrState) (c1 c2 : Prop)
    [Decidable c1] [Decidable c2] (b n : Stmt)
    (h : (if c2 then handleFt O (if c1 then handleCompoundStmt O st b else st) n
          else (if c1 then handleCompoundStmt O st b else st)).rep.clean
        = true) : st.rep.clean = true :=
  entryCond_clean O st c1 b (ftCond_clean O _ c2 n h)

/-- The callbacks at one node perform exactly the node's attempted
probes, provided the state stays clean. -/
theorem instrNode_spec (O : Src) (st : InstrState) (n : Stmt)
    (h : (instrNode O st n).rep.clean = true) :
    SpecStep st (instrNode O st n) (nodeProbeSpecs O n) := by
  cases n with
  | ifS i t e =>
    cases e with
    | none =>
      simp only [instrNode, nodeProbeSpecs] at h ⊢
      rw [List.nil_append]
      exact twoPhase_spec O st _ _ t _ h
    | some els =>
      simp only [instrNode, nodeProbeSpecs] at h ⊢
      have h2 : (if i.expFile = O.mainFile ∧ els.isCompound then
          handleCompoundStmt O
            (if i.expFile = O.mainFile ∧ t.isCompound
             then handleCompoundStmt O st t else st) els
          else (if i.expFile = O.mainFile ∧ t.isCompound
                then handleCompoundStmt O st t else st)).rep.clean = true :=
        ftCond_clean O _ _ _ h
      have h1 : (if i.expFile = O.mainFile ∧ t.isCompound
          then handleCompoundStmt O st t else st).rep.clean = true :=
        entryCond_clean O _ _ els h2
      refine specStep_trans (entryCond_spec O st _ t h1) ?_
      exact specStep_trans (entryCond_spec O _ _ els h2) (ftCond_spec O _ _ _ h)
  | forS i b =>
    simp only [instrNode, nodeProbeSpecs] at h ⊢
    exact twoPhase_spec O st _ _ b _ h
  | whileS i b =>
    simp only [instrNode, nodeProbeSpecs] at h ⊢
    exact twoPhase_spec O st _ _ b _ h
  | doS i b =>
    simp only [instrNode, nodeProbeSpecs] at h ⊢
    exact twoPhase_spec O st _ _ b _ h
  | rangeForS i b =>
    simp only [instrNode, nodeProbeSpecs] at h ⊢
    exact twoPhase_spec O st _ _ b _ h
  | switchS i b =>
    simp only [instrNode, nodeProbeSpecs] at h ⊢
    exact ftCond_spec O st _ _ h
  | caseS i b =>
    simp only [instrNode, nodeProbeSpecs] at h ⊢
    by_cases hm : i.expFile = O.mainFile ∧ ¬ containsLabel b
    · simp only [if_pos hm] at h ⊢
      by_cases hcpd : b.isCompound
      · simp only [if_pos hcpd] at h ⊢
        exact handleCompound_spec O st b h
      · simp only [if_neg hcpd] at h ⊢
        exact specStep_refl st
    · simp only [if_neg hm] at h ⊢
      exact specStep_refl st
  | defaultS i b =>
    simp only [instrNode, nodeProbeSpecs] at h ⊢
    by_cases hm : i.expFile = O.mainFile ∧ ¬ containsLabel b
    · simp only [if_pos hm] at h ⊢
      by_cases hcpd : b.isCompound
      · simp only [if_pos hcpd] at h ⊢
        exact handleCompound_spec O st b h
      · simp only [if_neg hcpd] at h ⊢
        exact specStep_refl st
    · simp only [if_neg hm] at h ⊢
      exact specStep_refl st
  | compound i ss => exact specStep_refl st
  | nullS i => exact specStep_refl st
  | exprS i => exact specStep_refl st
  | returnS i => exact specStep_refl st
  | breakS i => exact specStep_refl st

/-- Cleanliness propagates backwards through one node's callbacks. -/
theorem clean_of_instrNode (O : Src) (st : InstrState) (n : Stmt)
    (h : (instrNode O st n).rep.clean = true) : st.rep.clean = true := by
  cases n with
  | ifS i t e =>
    cases e with
    | none =>
      simp only [instrNode] at h
      exact twoPhase_clean O st _ _ t _ h
    | some els =>
      simp only [instrNode] at h
      exact entryCond_clean O st _ t
        (entryCond_clean O _ _ els (ftCond_clean O _ _ _ h))
  | forS i b =>
    simp only [instrNode] at h
    exact twoPhase_clean O st _ _ b _ h
  | whileS i b =>
    simp only [instrNode] at h
    exact twoPhase_clean O st _ _ b _ h
  | doS i b =>
    simp only [instrNode] at h
    exact twoPhase_clean O st _ _ b _ h
  | rangeForS i b =>
    simp only [instrNode] at h
    exact twoPhase_clean O st _ _ b _ h
  | switchS i b =>
    simp only [instrNode] at h
    exact ftCond_clean O st _ _ h
  | caseS i b =>
    simp only [instrNode] at h
    split at h
    · split at h
      · exact clean_of_handleCompound O st b h
      · exact h
    · exact h
  | defaultS i b =>
    simp only [instrNode] at h
    split at h
    · split at h
      · exact clean_of_handleCompound O st b h
      · exact h
    · exact h
  | compound i ss => exact h
  | nullS i => exact h
  | exprS i => exact h
  | returnS i => exact h
  | breakS i => exact h

theorem clean_of_foldl_instr (O : Src) (evs : List Stmt) (st : InstrState)
    (h : (evs.foldl (instrNode O) st).rep.clean = true) :
    st.rep.clean = true := by
  induction evs generalizing st with
  | nil => exact h
  | cons n rest ih => exact clean_of_instrNode O st n (ih _ h)

/-- A clean fold over a node sequence performs exactly the concatenated
per-node attempts. -/
theorem foldl_instr_spec (O : Src) (evs : List Stmt) (st : InstrState)
    (h : (evs.foldl (instrNode O) st).rep.clean = true) :
    SpecStep st (evs.foldl (instrNode O) st)
      (evs.flatMap (nodeProbeSpecs O)) := by
  induction evs generalizing st with
  | nil => exact specStep_refl st
  | cons n rest ih =>
    have hstep : (instrNode O st n).rep.clean = true :=
      clean_of_foldl_instr O rest _ h
    exact specStep_trans (instrNode_spec O st n hstep) (ih _ h)

/-- All probe attempts of a full instrumenter traversal, in allocation
order. -/
def allProbeSpecs (O : Src) (root : Stmt) : List ProbeSpec :=
  (visitOrder root).flatMap (nodeProbeSpecs O)

theorem clean_of_instrEnd (O : Src) (st : InstrState)
    (h : (instrEnd O st).rep.clean = true) : st.rep.clean = true := by
  unfold instrEnd at h
  split at h
  · exact h
  · exact (addRep_clean O st.rep _ _ _ h).1

/-- A clean full instrumenter run: the counter equals the number of
attempted probes, and the edits are the probe calls (ids assigned in
order of attempt) followed — when at least one probe was allocated — by
the forward-declaration header at the start of the main file. -/
theorem instrument_chars (O : Src) (root : Stmt)
    (h : (instrument O root).rep.clean = true) :
    (instrument O root).counter = (allProbeSpecs O root).length ∧
    (instrument O root).rep.edits =
      buildEdits 0 (allProbeSpecs O root) ++
        (if (allProbeSpecs O root).length = 0 then []
         else [⟨O.fileOf (O.spell O.fileBegin), O.spell O.fileBegin,
                .declsHeader (allProbeSpecs O root).length
                  (O.tokenAt (O.spell O.fileBegin))⟩]) := by
  unfold instrument at h ⊢
  have hfold : ((visitOrder root).foldl (instrNode O) InstrState.init).rep.clean
      = true := clean_of_instrEnd O _ h
  have hspec := foldl_instr_spec O (visitOrder root) InstrState.init hfold
  obtain ⟨he, hc, _, _⟩ := hspec
  rw [show InstrState.init.rep.edits = [] from rfl, List.nil_append,
    show InstrState.init.counter = 0 from rfl] at he
  rw [show InstrState.init.counter = 0 from rfl, Nat.zero_add] at hc
  set stf := (visitOrder root).foldl (instrNode O) InstrState.init with hstf
  unfold instrEnd at h ⊢
  by_cases hz : stf.counter = 0
  · rw [if_pos hz] at h ⊢
    have hlen : (allProbeSpecs O root).length = 0 := by
      unfold allProbeSpecs
      omega
    rw [if_pos hlen, List.append_nil]
    exact ⟨by rw [hz, hlen], he⟩
  · rw [if_neg hz] at h ⊢
    have hadd := addRep_clean O stf.rep O.fileBegin O.fileBegin
      (.declsHeader stf.counter (O.tokenAt (O.spell O.fileBegin))) h
    have hcnt : stf.counter = (allProbeSpecs O root).length := by
      unfold allProbeSpecs
      omega
    have hlen : ¬ ((allProbeSpecs O root).length = 0) := by omega
    rw [if_neg hlen]
    refine ⟨hcnt, ?_⟩
    show (addReplacementOrDie O stf.rep _ _ _).edits = _
    rw [hadd.2.1, he, hcnt]
    unfold allProbeSpecs
    rfl

/-- Every attempted probe's edit carries the id it was allocated. -/
theorem callId_toEdit (sp : ProbeSpec) (c : Nat) :
    callId (sp.toEdit c).text = some c := by
  cases hk : sp.kind <;> simp [ProbeSpec.toEdit, hk, callId]

/-- Probe ids of a built run are consecutive from the starting counter. -/
theorem callIds_buildEdits (c : Nat) (specs : List ProbeSpec) :
    callIds (buildEdits c specs) = List.range' c specs.length := by
  induction specs generalizing c with
  | nil => simp [buildEdits, callIds]
  | cons sp rest ih =>
    simp only [buildEdits, callIds, List.filterMap_cons, callId_toEdit,
      List.length_cons, List.range'_succ]
    exact congrArg (List.cons c) (ih (c + 1))

theorem buildEdits_no_decls (c : Nat) (specs : List ProbeSpec) :
    ∀ e ∈ buildEdits c specs, isDeclsText e.text = false := by
  induction specs generalizing c with
  | nil => simp [buildEdits]
  | cons sp rest ih =>
    intro e he
    simp only [buildEdits, List.mem_cons] at he
    rcases he with he | he
    · subst he
      cases hk : sp.kind <;> simp [ProbeSpec.toEdit, hk, isDeclsText]
    · exact ih (c + 1) e he

theorem buildEdits_entryLocs (c : Nat) (specs : List ProbeSpec) :
    (buildEdits c specs).filterMap entryLocOf =
      specs.filterMap fun sp =>
        match sp.kind with
        | .entry => some sp.loc
        | .ft _ => none := by
  induction specs generalizing c with
  | nil => simp [buildEdits]
  | cons sp rest ih =>
    cases hk : sp.kind with
    | entry =>
      simp only [buildEdits, ProbeSpec.toEdit, hk, List.filterMap_cons,
        entryLocOf]
      exact congrArg (List.cons sp.loc) (ih (c + 1))
    | ft tok =>
      simp only [buildEdits, ProbeSpec.toEdit, hk, List.filterMap_cons,
        entryLocOf]
      exact ih (c + 1)

theorem buildEdits_id_bounds (c : Nat) (specs : List ProbeSpec) :
    ∀ e ∈ buildEdits c specs, ∀ k, callId e.text = some k →
      c ≤ k ∧ k < c + specs.length := by
  induction specs generalizing c with
  | nil => simp [buildEdits]
  | cons sp rest ih =>
    intro e he k hk
    simp only [buildEdits, List.mem_cons] at he
    rcases he with he | he
    · subst he
      cases hsp : sp.kind <;>
          simp only [ProbeSpec.toEdit, hsp, callId, Option.some_inj] at hk <;>
        (subst hk
         refine ⟨Nat.le_refl c, ?_⟩
         simp only [List.length_cons]
         omega)
    · have := ih (c + 1) e he k hk
      simp only [List.length_cons]
      omega

/-! ## Canonicalizer step characterization -/

/-- Whether an action bumps the debt at location `l`. -/
def CAct.bumpAt (l : Nat) : CAct → Bool
  | .bump l' => l' == l
  | .edit _ _ _ => false

/-- Two canonicalizer states related by a clean run of actions. -/
def CanonStep (st st' : CanonState) (acts : List CAct) : Prop :=
  st'.rep.edits = st.rep.edits ++ acts.filterMap CAct.editPart ∧
  (∀ l, debtCount l st'.debt =
    debtCount l st.debt + acts.countP (CAct.bumpAt l)) ∧
  st'.rep.diags = st.rep.diags ∧
  st'.rep.died = st.rep.died

theorem canonStep_refl (st : CanonState) : CanonStep st st [] :=
  ⟨by simp, by simp [List.countP_nil], rfl, rfl⟩

theorem canonStep_trans {st1 st2 st3 : CanonState} {l1 l2 : List CAct}
    (h1 : CanonStep st1 st2 l1) (h2 : CanonStep st2 st3 l2) :
    CanonStep st1 st3 (l1 ++ l2) := by
  obtain ⟨e1, c1, d1, x1⟩ := h1
  obtain ⟨e2, c2, d2, x2⟩ := h2
  refine ⟨?_, ?_, ?_, ?_⟩
  · rw [e2, e1, List.filterMap_append, List.append_assoc]
  · intro l
    rw [List.countP_append, c2 l, c1 l]
    omega
  · rw [d2, d1]
  · rw [x2, x1]

theorem debtCount_bump (d : List (Nat × Nat)) (l l' : Nat) :
    debtCount l (bumpDebt d l') =
      debtCount l d + (if l' = l then 1 else 0) := by
  induction d with
  | nil => simp [bumpDebt, debtCount]
  | cons kd rest ih =>
    obtain ⟨k, dd⟩ := kd
    simp only [bumpDebt]
    by_cases h1 : l' < k
    · rw [if_pos h1]
      simp only [debtCount, List.map_cons, List.sum_cons]
      omega
    · rw [if_neg h1]
      by_cases h2 : l' = k
      · rw [if_pos h2]
        subst h2
        simp only [debtCount, List.map_cons, List.sum_cons]
        by_cases h3 : l' = l <;> (simp [h3]; try omega)
      · rw [if_neg h2]
        simp only [debtCount, List.map_cons, List.sum_cons] at ih ⊢
        rw [ih]
        omega

theorem handleStmt_spec (O : Src) (st : CanonState) (s : Stmt)
    (h : (handleStmt O st s).rep.clean = true) :
    CanonStep st (handleStmt O st s) (handleStmtActs O s) := by
  unfold handleStmt at h ⊢
  unfold handleStmtActs
  by_cases hg : O.fileOf (O.spell s.beginLoc) ≠ O.mainFile
  · rw [if_pos hg] at h ⊢
    rw [if_pos hg]
    exact canonStep_refl st
  · rw [if_neg hg] at h ⊢
    rw [if_neg hg]
    by_cases hcpd : s.isCompound
    · rw [if_pos hcpd] at h ⊢
      rw [if_pos hcpd]
      exact canonStep_refl st
    · rw [if_neg hcpd] at h ⊢
      rw [if_neg hcpd]
      by_cases hnull : s.isNull
      · rw [if_pos hnull] at h ⊢
        rw [if_pos hnull]
        have hadd := addRep_clean O st.rep s.beginLoc s.beginLoc .emptyBlock h
        refine ⟨?_, ?_, hadd.2.2.1, hadd.2.2.2⟩
        · show (addReplacementOrDie O st.rep _ _ _).edits = _
          rw [hadd.2.1]
          simp [CAct.editPart]
        · intro l
          simp [List.countP, List.countP.go, CAct.bumpAt]
      · rw [if_neg hnull] at h ⊢
        rw [if_neg hnull]
        have hadd := addRep_clean O st.rep s.beginLoc s.beginLoc
          (.braceOpen (O.tokenAt (O.spell s.beginLoc))) h
        refine ⟨?_, ?_, hadd.2.2.1, hadd.2.2.2⟩
        · show (addReplacementOrDie O st.rep _ _ _).edits = _
          rw [hadd.2.1]
          simp [CAct.editPart]
        · intro l
          show debtCount l (bumpDebt st.debt (endBoundary O s.endLoc)) = _
          rw [debtCount_bump]
          simp only [List.countP_cons, List.countP_nil, CAct.bumpAt]
          by_cases hb : endBoundary O s.endLoc = l <;> simp [hb]

theorem clean_of_handleStmt (O : Src) (st : CanonState) (s : Stmt)
    (h : (handleStmt O st s).rep.clean = true) : st.rep.clean = true := by
  unfold handleStmt at h
  split at h
  · exact h
  · split at h
    · exact h
    · split at h
      · exact (addRep_clean O st.rep _ _ _ h).1
      · exact (addRep_clean O st.rep _ _ _ h).1

theorem stmtCond_spec (O : Src) (st : CanonState) (c : Prop) [Decidable c]
    (b : Stmt)
    (h : (if c then handleStmt O st b else st).rep.clean = true) :
    CanonStep st (if c then handleStmt O st b else st)
      (if c then handleStmtActs O b else []) := by
  by_cases hc : c
  · rw [if_pos hc] at h ⊢
    rw [if_pos hc]
    exact handleStmt_spec O st b h
  · rw [if_neg hc, if_neg hc]
    exact canonStep_refl st

theorem stmtCond_clean (O : Src) (st : CanonState) (c : Prop) [Decidable c]
    (b : Stmt)
    (h : (if c then handleStmt O st b else st).rep.clean = true) :
    st.rep.clean = true := by
  by_cases hc : c
  · rw [if_pos hc] at h
    exact clean_of_handleStmt O st b h
  · rwa [if_neg hc] at h

theorem canonNode_spec (O : Src) (st : CanonState) (n : Stmt)
    (h : (canonNode O st n).rep.clean = true) :
    CanonStep st (canonNode O st n) (canonActs O n) := by
  cases n with
  | ifS i t e =>
    cases e with
    | none =>
      simp only [canonNode, canonActs] at h ⊢
      by_cases hm : i.expFile = O.mainFile
      · rw [if_pos hm] at h ⊢
        rw [if_pos hm, List.append_nil]
        exact handleStmt_spec O st t h
      · rw [if_neg hm] at h ⊢
        rw [if_neg hm]
        exact canonStep_refl st
    | some els =>
      simp only [canonNode, canonActs] at h ⊢
      by_cases hm : i.expFile = O.mainFile
      · rw [if_pos hm] at h ⊢
        rw [if_pos hm]
        have h1 : (handleStmt O st t).rep.clean = true :=
          clean_of_handleStmt O _ els h
        exact canonStep_trans (handleStmt_spec O st t h1)
          (handleStmt_spec O _ els h)
      · rw [if_neg hm] at h ⊢
        rw [if_neg hm]
        exact canonStep_refl st
  | forS i b =>
    simp only [canonNode, canonActs] at h ⊢
    exact stmtCond_spec O st _ b h
  | whileS i b =>
    simp only [canonNode, canonActs] at h ⊢
    exact stmtCond_spec O st _ b h
  | doS i b =>
    simp only [canonNode, canonActs] at h ⊢
    exact stmtCond_spec O st _ b h
  | rangeForS i b =>
    simp only [canonNode, canonActs] at h ⊢
    exact stmtCond_spec O st _ b h
  | caseS i b =>
    simp only [canonNode, canonActs] at h ⊢
    exact stmtCond_spec O st _ b h
  | defaultS i b =>
    simp only [canonNode, canonActs] at h ⊢
    exact stmtCond_spec O st _ b h
  | switchS i b => exact canonStep_refl st
  | compound i ss => exact canonStep_refl st
  | nullS i => exact canonStep_refl st
  | exprS i => exact canonStep_refl st
  | returnS i => exact canonStep_refl st
  | breakS i => exact canonStep_refl st

theorem clean_of_canonNode (O : Src) (st : CanonState) (n : Stmt)
    (h : (canonNode O st n).rep.clean = true) : st.rep.clean = true := by
  cases n with
  | ifS i t e =>
    cases e with
    | none =>
      simp only [canonNode] at h
      split at h
      · exact clean_of_handleStmt O st t h
      · exact h
    | some els =>
      simp only [canonNode] at h
      split at h
      · exact clean_of_handleStmt O st t (clean_of_handleStmt O _ els h)
      · exact h
  | forS i b =>
    simp only [canonNode] at h
    exact stmtCond_clean O st _ b h
  | whileS i b =>
    simp only [canonNode] at h
    exact stmtCond_clean O st _ b h
  | doS i b =>
    simp only [canonNode] at h
    exact stmtCond_clean O st _ b h
  | rangeForS i b =>
    simp only [canonNode] at h
    exact stmtCond_clean O st _ b h
  | caseS i b =>
    simp only [canonNode] at h
    exact stmtCond_clean O st _ b h
  | defaultS i b =>
    simp only [canonNode] at h
    exact stmtCond_clean O st _ b h
  | switchS i b => exact h
  | compound i ss => exact h
  | nullS i => exact h
  | exprS i => exact h
  | returnS i => exact h
  | breakS i => exact h

theorem clean_of_foldl_canon (O : Src) (evs : List Stmt) (st : CanonState)
    (h : (evs.foldl (canonNode O) st).rep.clean = true) :
    st.rep.clean = true := by
  induction evs generalizing st with
  | nil => exact h
  | cons n rest ih => exact clean_of_canonNode O st n (ih _ h)

theorem foldl_canon_spec (O : Src) (evs : List Stmt) (st : CanonState)
    (h : (evs.foldl (canonNode O) st).rep.clean = true) :
    CanonStep st (evs.foldl (canonNode O) st)
      (evs.flatMap (canonActs O)) := by
  induction evs generalizing st with
  | nil => exact canonStep_refl st
  | cons n rest ih =>
    have hstep : (canonNode O st n).rep.clean = true :=
      clean_of_foldl_canon O rest _ h
    exact canonStep_trans (canonNode_spec O st n hstep) (ih _ h)

/-- The single flush replacement for one debt entry. -/
def flushEditOf (O : Src) (ld : Nat × Nat) : Edit :=
  ⟨O.fileOf (O.spell ld.1), O.spell ld.1,
   .closeBraces (O.tokenAt (O.spell ld.1)) ld.2⟩

theorem foldl_flush_clean (O : Src) (reqs : List (Nat × Nat)) (r : RepState)
    (h : (reqs.foldl (fun r0 ld => addReplacementOrDie O r0 ld.1 ld.1
        (.closeBraces (O.tokenAt (O.spell ld.1)) ld.2)) r).clean = true) :
    (reqs.foldl (fun r0 ld => addReplacementOrDie O r0 ld.1 ld.1
        (.closeBraces (O.tokenAt (O.spell ld.1)) ld.2)) r).edits =
      r.edits ++ reqs.map (flushEditOf O) ∧ r.clean = true := by
  induction reqs generalizing r with
  | nil => exact ⟨by simp, h⟩
  | cons ld rest ih =>
    simp only [List.foldl_cons] at h ⊢
    have h2 := ih _ h
    have h1 := addRep_clean O r ld.1 ld.1
      (.closeBraces (O.tokenAt (O.spell ld.1)) ld.2) h2.2
    refine ⟨?_, h1.1⟩
    rw [h2.1, h1.2.1]
    simp [flushEditOf]

theorem canonFlush_chars (O : Src) (st : CanonState)
    (h : (canonFlush O st).rep.clean = true) :
    (canonFlush O st).rep.edits =
      st.rep.edits ++ st.debt.map (flushEditOf O) ∧
    (canonFlush O st).debt = st.debt ∧ st.rep.clean = true := by
  have hh := foldl_flush_clean O st.debt st.rep h
  exact ⟨hh.1, rfl, hh.2⟩

/-- A clean full canonicalizer run: the edits are exactly the per-node
edit actions in visit order, followed by one flush edit per debt entry;
and the debt at each location counts the bodies whose end boundary it
is. -/
theorem canonicalize_chars (O : Src) (root : Stmt)
    (h : (canonicalize O root).rep.clean = true) :
    (canonicalize O root).rep.edits =
      ((visitOrder root).flatMap (canonActs O)).filterMap CAct.editPart ++
        (canonicalize O root).debt.map (flushEditOf O) ∧
    (∀ l, debtCount l (canonicalize O root).debt =
      ((visitOrder root).flatMap (canonActs O)).countP (CAct.bumpAt l)) := by
  unfold canonicalize at h ⊢
  set stf := (visitOrder root).foldl (canonNode O) CanonState.init with hstf
  have hfl := canonFlush_chars O stf h
  have hspec := foldl_canon_spec O (visitOrder root) CanonState.init hfl.2.2
  obtain ⟨he, hd, _, _⟩ := hspec
  rw [show CanonState.init.rep.edits = [] from rfl, List.nil_append] at he
  constructor
  · rw [hfl.1, he, hfl.2.1]
  · intro l
    rw [hfl.2.1, hd l]
    simp [debtCount, CanonState.init]

/-! ## Debt-map order and edit distinctness invariants -/

/-- The debt map's keys are strictly sorted (`std::map` iteration
order). -/
def DebtSorted (d : List (Nat × Nat)) : Prop :=
  d.Pairwise fun a b => a.1 < b.1

theorem bumpDebt_mem_keys (d : List (Nat × Nat)) (l : Nat) :
    ∀ p ∈ bumpDebt d l, p.1 = l ∨ p.1 ∈ d.map Prod.fst := by
  induction d with
  | nil =>
    intro p hp
    simp only [bumpDebt, List.mem_singleton] at hp
    left
    rw [hp]
  | cons kd rest ih =>
    obtain ⟨k, dd⟩ := kd
    intro p hp
    simp only [bumpDebt] at hp
    split at hp
    · rcases List.mem_cons.mp hp with h1 | h1
      · left
        rw [h1]
      · right
        exact List.mem_map_of_mem Prod.fst h1
    · split at hp
      · rcases List.mem_cons.mp hp with h1 | h1
        · right
          rw [h1]
          simp
        · right
          simp only [List.map_cons, List.mem_cons]
          right
          exact List.mem_map_of_mem Prod.fst h1
      · rcases List.mem_cons.mp hp with h1 | h1
        · right
          rw [h1]
          simp
        · rcases ih p h1 with h2 | h2
          · left
            exact h2
          · right
            simp only [List.map_cons, List.mem_cons]
            right
            exact h2

theorem bumpDebt_sorted (d : List (Nat × Nat)) (l : Nat)
    (h : DebtSorted d) : DebtSorted (bumpDebt d l) := by
  induction d with
  | nil =>
    simp [bumpDebt, DebtSorted]
  | cons kd rest ih =>
    obtain ⟨k, dd⟩ := kd
    unfold DebtSorted at h
    rw [List.pairwise_cons] at h
    simp only [bumpDebt]
    split
    · unfold DebtSorted
      rw [List.pairwise_cons]
      refine ⟨?_, List.Pairwise.cons h.1 h.2⟩
      intro p hp
      rcases List.mem_cons.mp hp with h1 | h1
      · rw [h1]; assumption
      · have hk := h.1 p h1
        omega
    · split
      · unfold DebtSorted
        rw [List.pairwise_cons]
        exact ⟨fun p hp => h.1 p hp, h.2⟩
      · unfold DebtSorted
        rw [List.pairwise_cons]
        refine ⟨?_, ih h.2⟩
        intro p hp
        rcases bumpDebt_mem_keys rest l p hp with h1 | h1
        · rw [h1]; omega
        · obtain ⟨q, hq, hq1⟩ := List.mem_map.mp h1
          rw [← hq1]
          exact h.1 q hq

theorem handleStmt_sorted (O : Src) (st : CanonState) (s : Stmt)
    (h : DebtSorted st.debt) : DebtSorted (handleStmt O st s).debt := by
  unfold handleStmt
  split
  · exact h
  · split
    · exact h
    · split
      · exact h
      · exact bumpDebt_sorted st.debt _ h

theorem canonNode_sorted (O : Src) (st : CanonState) (n : Stmt)
    (h : DebtSorted st.debt) : DebtSorted (canonNode O st n).debt := by
  cases n with
  | ifS i t e =>
    cases e with
    | none =>
      simp only [canonNode]
      split
      · exact handleStmt_sorted O st t h
      · exact h
    | some els =>
      simp only [canonNode]
      split
      · exact handleStmt_sorted O _ els (handleStmt_sorted O st t h)
      · exact h
  | forS i b =>
    simp only [canonNode]
    split
    · exact handleStmt_sorted O st b h
    · exact h
  | whileS i b =>
    simp only [canonNode]
    split
    · exact handleStmt_sorted O st b h
    · exact h
  | doS i b =>
    simp only [canonNode]
    split
    · exact handleStmt_sorted O st b h
    · exact h
  | rangeForS i b =>
    simp only [canonNode]
    split
    · exact handleStmt_sorted O st b h
    · exact h
  | caseS i b =>
    simp only [canonNode]
    split
    · exact handleStmt_sorted O st b h
    · exact h
  | defaultS i b =>
    simp only [canonNode]
    split
    · exact handleStmt_sorted O st b h
    · exact h
  | switchS i b => exact h
  | compound i ss => exact h
  | nullS i => exact h
  | exprS i => exact h
  | returnS i => exact h
  | breakS i => exact h

theorem foldl_canon_sorted (O : Src) (evs : List Stmt) :
    ∀ st : CanonState, DebtSorted st.debt →
      DebtSorted ((evs.foldl (canonNode O) st)).debt := by
  induction evs with
  | nil => exact fun st h => h
  | cons n rest ih => exact fun st h => ih _ (canonNode_sorted O st n h)

/-- The debt map of a full canonicalizer run is strictly sorted by
location, so no location is flushed twice. -/
theorem canonicalize_sorted (O : Src) (root : Stmt) :
    DebtSorted (canonicalize O root).debt := by
  unfold canonicalize
  show DebtSorted ((visitOrder root).foldl (canonNode O) CanonState.init).debt
  exact foldl_canon_sorted O (visitOrder root) CanonState.init
    (by simp [CanonState.init, DebtSorted])

theorem handleCompound_pd (O : Src) (st : InstrState) (c : Stmt)
    (h : EditsPD st.rep.edits) :
    EditsPD (handleCompoundStmt O st c).rep.edits :=
  addRep_pd O st.rep _ _ _ h

theorem handleFt_pd (O : Src) (st : InstrState) (n : Stmt)
    (h : EditsPD st.rep.edits) : EditsPD (handleFt O st n).rep.edits := by
  unfold handleFt
  split
  · exact h
  · exact addRep_pd O st.rep _ _ _ h

theorem entryCond_pd (O : Src) (st : InstrState) (c : Prop) [Decidable c]
    (b : Stmt) (h : EditsPD st.rep.edits) :
    EditsPD (if c then handleCompoundStmt O st b else st).rep.edits := by
  split
  · exact handleCompound_pd O st b h
  · exact h

theorem ftCond_pd (O : Src) (st : InstrState) (c : Prop) [Decidable c]
    (n : Stmt) (h : EditsPD st.rep.edits) :
    EditsPD (if c then handleFt O st n else st).rep.edits := by
  split
  · exact handleFt_pd O st n h
  · exact h

theorem instrNode_pd (O : Src) (st : InstrState) (n : Stmt)
    (h : EditsPD st.rep.edits) : EditsPD (instrNode O st n).rep.edits := by
  cases n with
  | ifS i t e =>
    cases e with
    | none =>
      simp only [instrNode]
      exact ftCond_pd O _ _ _ (entryCond_pd O st _ t h)
    | some els =>
      simp only [instrNode]
      exact ftCond_pd O _ _ _ (entryCond_pd O _ _ els (entryCond_pd O st _ t h))
  | forS i b =>
    simp only [instrNode]
    exact ftCond_pd O _ _ _ (entryCond_pd O st _ b h)
  | whileS i b =>
    simp only [instrNode]
    exact ftCond_pd O _ _ _ (entryCond_pd O st _ b h)
  | doS i b =>
    simp only [instrNode]
    exact ftCond_pd O _ _ _ (entryCond_pd O st _ b h)
  | rangeForS i b =>
    simp only [instrNode]
    exact ftCond_pd O _ _ _ (entryCond_pd O st _ b h)
  | switchS i b =>
    simp only [instrNode]
    exact ftCond_pd O st _ _ h
  | caseS i b =>
    simp only [instrNode]
    split
    · split
      · exact handleCompound_pd O st b h
      · exact h
    · exact h
  | defaultS i b =>
    simp only [instrNode]
    split
    · split
      · exact handleCompound_pd O st b h
      · exact h
    · exact h
  | compound i ss => exact h
  | nullS i => exact h
  | exprS i => exact h
  | returnS i => exact h
  | breakS i => exact h

/-- Pairwise distinctness of the final instrumenter edits: a colliding
replacement would abort instead (`Replacements::add`). -/
theorem instrument_pd (O : Src) (root : Stmt) :
    EditsPD (instrument O root).rep.edits := by
  unfold instrument
  have hfold : ∀ (evs : List Stmt) (st : InstrState), EditsPD st.rep.edits →
      EditsPD ((evs.foldl (instrNode O) st)).rep.edits := by
    intro evs
    induction evs with
    | nil => exact fun st h => h
    | cons n rest ih => exact fun st h => ih _ (instrNode_pd O st n h)
  have hbase : EditsPD ((visitOrder root).foldl (instrNode O)
      InstrState.init).rep.edits :=
    hfold _ _ (by simp [EditsPD, InstrState.init, RepState.init])
  unfold instrEnd
  split
  · exact hbase
  · exact addRep_pd O _ _ _ _ hbase

theorem handleStmt_pd (O : Src) (st : CanonState) (s : Stmt)
    (h : EditsPD st.rep.edits) : EditsPD (handleStmt O st s).rep.edits := by
  unfold handleStmt
  split
  · exact h
  · split
    · exact h
    · split
      · exact addRep_pd O st.rep _ _ _ h
      · exact addRep_pd O st.rep _ _ _ h

theorem canonNode_pd (O : Src) (st : CanonState) (n : Stmt)
    (h : EditsPD st.rep.edits) : EditsPD (canonNode O st n).rep.edits := by
  cases n with
  | ifS i t e =>
    cases e with
    | none =>
      simp only [canonNode]
      split
      · exact handleStmt_pd O st t h
      · exact h
    | some els =>
      simp only [canonNode]
      split
      · exact handleStmt_pd O _ els (handleStmt_pd O st t h)
      · exact h
  | forS i b =>
    simp only [canonNode]
    split
    · exact handleStmt_pd O st b h
    · exact h
  | whileS i b =>
    simp only [canonNode]
    split
    · exact handleStmt_pd O st b h
    · exact h
  | doS i b =>
    simp only [canonNode]
    split
    · exact handleStmt_pd O st b h
    · exact h
  | rangeForS i b =>
    simp only [canonNode]
    split
    · exact handleStmt_pd O st b h
    · exact h
  | caseS i b =>
    simp only [canonNode]
    split
    · exact handleStmt_pd O st b h
    · exact h
  | defaultS i b =>
    simp only [canonNode]
    split
    · exact handleStmt_pd O st b h
    · exact h
  | switchS i b => exact h
  | compound i ss => exact h
  | nullS i => exact h
  | exprS i => exact h
  | returnS i => exact h
  | breakS i => exact h

/-- Pairwise distinctness of the final canonicalizer edits. -/
theorem canonicalize_pd (O : Src) (root : Stmt) :
    EditsPD (canonicalize O root).rep.edits := by
  unfold canonicalize
  have hfold : ∀ (evs : List Stmt) (st : CanonState), EditsPD st.rep.edits →
      EditsPD ((evs.foldl (canonNode O) st)).rep.edits := by
    intro evs
    induction evs with
    | nil => exact fun st h => h
    | cons n rest ih => exact fun st h => ih _ (canonNode_pd O st n h)
  have hbase : EditsPD ((visitOrder root).foldl (canonNode O)
      CanonState.init).rep.edits :=
    hfold _ _ (by simp [EditsPD, CanonState.init, RepState.init])
  unfold canonFlush
  have hflush : ∀ (reqs : List (Nat × Nat)) (r : RepState), EditsPD r.edits →
      EditsPD ((reqs.foldl (fun r0 ld => addReplacementOrDie O r0 ld.1 ld.1
        (.closeBraces (O.tokenAt (O.spell ld.1)) ld.2)) r)).edits := by
    intro reqs
    induction reqs with
    | nil => exact fun r h => h
    | cons ld rest ih => exact fun r h => ih _ (addRep_pd O r _ _ _ h)
  exact hflush _ _ hbase

/-! ## Nodes with no attempts leave the state unchanged -/

theorem ite_singleton_eq_nil {B : Type} {c : Prop} [Decidable c] {x : B}
    (h : (if c then [x] else []) = []) : ¬c := by
  intro hc
  rw [if_pos hc] at h
  simp at h

theorem mem_ite_singleton {B : Type} {c : Prop} [Decidable c] {x y : B}
    (h : y ∈ (if c then [x] else [])) : c ∧ y = x := by
  by_cases hc : c
  · rw [if_pos hc] at h
    exact ⟨hc, List.mem_singleton.mp h⟩
  · rw [if_neg hc] at h
    simp at h

theorem handleStmt_id (O : Src) (st : CanonState) (s : Stmt)
    (h : handleStmtActs O s = []) : handleStmt O st s = st := by
  unfold handleStmtActs at h
  unfold handleStmt
  by_cases hg : O.fileOf (O.spell s.beginLoc) ≠ O.mainFile
  · rw [if_pos hg]
  · rw [if_neg hg] at h ⊢
    by_cases hcpd : s.isCompound
    · rw [if_pos hcpd]
    · rw [if_neg hcpd] at h ⊢
      by_cases hnull : s.isNull
      · rw [if_pos hnull] at h
        simp at h
      · rw [if_neg hnull] at h
        simp at h

theorem canonNode_id (O : Src) (st : CanonState) (n : Stmt)
    (h : canonActs O n = []) : canonNode O st n = st := by
  cases n with
  | ifS i t e =>
    cases e with
    | none =>
      simp only [canonActs] at h
      simp only [canonNode]
      split
      · rw [if_pos ‹_›, List.append_nil] at h
        exact handleStmt_id O st t h
      · rfl
    | some els =>
      simp only [canonActs] at h
      simp only [canonNode]
      split
      · rw [if_pos ‹_›] at h
        rw [List.append_eq_nil] at h
        rw [handleStmt_id O st t h.1]
        exact handleStmt_id O st els h.2
      · rfl
  | forS i b =>
    simp only [canonActs] at h
    simp only [canonNode]
    split
    · rw [if_pos ‹_›] at h
      exact handleStmt_id O st b h
    · rfl
  | whileS i b =>
    simp only [canonActs] at h
    simp only [canonNode]
    split
    · rw [if_pos ‹_›] at h
      exact handleStmt_id O st b h
    · rfl
  | doS i b =>
    simp only [canonActs] at h
    simp only [canonNode]
    split
    · rw [if_pos ‹_›] at h
      exact handleStmt_id O st b h
    · rfl
  | rangeForS i b =>
    simp only [canonActs] at h
    simp only [canonNode]
    split
    · rw [if_pos ‹_›] at h
      exact handleStmt_id O st b h
    · rfl
  | caseS i b =>
    simp only [canonActs] at h
    simp only [canonNode]
    split
    · rw [if_pos ‹_›] at h
      exact handleStmt_id O st b h
    · rfl
  | defaultS i b =>
    simp only [canonActs] at h
    simp only [canonNode]
    split
    · rw [if_pos ‹_›] at h
      exact handleStmt_id O st b h
    · rfl
  | switchS i b => rfl
  | compound i ss => rfl
  | nullS i => rfl
  | exprS i => rfl
  | returnS i => rfl
  | breakS i => rfl

theorem instrNode_id (O : Src) (st : InstrState) (n : Stmt)
    (h : nodeProbeSpecs O n = []) : instrNode O st n = st := by
  cases n with
  | ifS i t e =>
    simp only [nodeProbeSpecs, List.append_eq_nil] at h
    obtain ⟨h1, h2, h3⟩ := h
    have hc1 := ite_singleton_eq_nil h1
    have hc3 := ite_singleton_eq_nil h3
    cases e with
    | none =>
      simp only [instrNode]
      rw [if_neg hc1]
      split
      · rw [handleFt_skip O st _ (by tauto)]
      · rfl
    | some els =>
      have hc2 := ite_singleton_eq_nil h2
      simp only [instrNode]
      rw [if_neg hc1, if_neg hc2]
      split
      · rw [handleFt_skip O st _ (by tauto)]
      · rfl
  | forS i b =>
    simp only [nodeProbeSpecs, List.append_eq_nil] at h
    have hc1 := ite_singleton_eq_nil h.1
    have hc2 := ite_singleton_eq_nil h.2
    simp only [instrNode]
    rw [if_neg hc1]
    split
    · rw [handleFt_skip O st _ (by tauto)]
    · rfl
  | whileS i b =>
    simp only [nodeProbeSpecs, List.append_eq_nil] at h
    have hc1 := ite_singleton_eq_nil h.1
    have hc2 := ite_singleton_eq_nil h.2
    simp only [instrNode]
    rw [if_neg hc1]
    split
    · rw [handleFt_skip O st _ (by tauto)]
    · rfl
  | doS i b =>
    simp only [nodeProbeSpecs, List.append_eq_nil] at h
    have hc1 := ite_singleton_eq_nil h.1
    have hc2 := ite_singleton_eq_nil h.2
    simp only [instrNode]
    rw [if_neg hc1]
    split
    · rw [handleFt_skip O st _ (by tauto)]
    · rfl
  | rangeForS i b =>
    simp only [nodeProbeSpecs, List.append_eq_nil] at h
    have hc1 := ite_singleton_eq_nil h.1
    have hc2 := ite_singleton_eq_nil h.2
    simp only [instrNode]
    rw [if_neg hc1]
    split
    · rw [handleFt_skip O st _ (by tauto)]
    · rfl
  | switchS i b =>
    simp only [nodeProbeSpecs] at h
    have hc := ite_singleton_eq_nil h
    simp only [instrNode]
    split
    · rw [handleFt_skip O st _ (by tauto)]
    · rfl
  | caseS i b =>
    simp only [nodeProbeSpecs] at h
    simp only [instrNode]
    split
    · rw [if_pos ‹_›] at h
      split
      · rw [if_pos ‹_›] at h
        simp at h
      · rfl
    · rfl
  | defaultS i b =>
    simp only [nodeProbeSpecs] at h
    simp only [instrNode]
    split
    · rw [if_pos ‹_›] at h
      split
      · rw [if_pos ‹_›] at h
        simp at h
      · rfl
    · rfl
  | compound i ss => rfl
  | nullS i => rfl
  | exprS i => rfl
  | returnS i => rfl
  | breakS i => rfl

theorem foldl_instr_id (O : Src) (evs : List Stmt)
    (h : ∀ n ∈ evs, nodeProbeSpecs O n = []) :
    ∀ st : InstrState, evs.foldl (instrNode O) st = st := by
  induction evs with
  | nil => intro st; rfl
  | cons n rest ih =>
    intro st
    simp only [List.foldl_cons]
    rw [instrNode_id O st n (h n (by simp))]
    exact ih (fun m hm => h m (by simp [hm])) st

theorem foldl_canon_id (O : Src) (evs : List Stmt)
    (h : ∀ n ∈ evs, canonActs O n = []) :
    ∀ st : CanonState, evs.foldl (canonNode O) st = st := by
  induction evs with
  | nil => intro st; rfl
  | cons n rest ih =>
    intro st
    simp only [List.foldl_cons]
    rw [canonNode_id O st n (h n (by simp))]
    exact ih (fun m hm => h m (by simp [hm])) st

/-- A tree with no probe attempts anywhere is left byte-for-byte
unchanged by the instrumenter. -/
theorem instrument_nil (O : Src) (root : Stmt)
    (h : collectT (nodeProbeSpecs O) root = []) :
    instrument O root = InstrState.init := by
  have hall := visitOrder_forall_nil (nodeProbeSpecs O) root h
  unfold instrument
  rw [foldl_instr_id O _ hall]
  unfold instrEnd
  rw [if_pos (show InstrState.init.counter = 0 from rfl)]

/-- A tree with no canonicalizer actions anywhere produces an empty edit
set. -/
theorem canonicalize_nil (O : Src) (root : Stmt)
    (h : collectT (canonActs O) root = []) :
    canonicalize O root = CanonState.init := by
  have hall := visitOrder_forall_nil (canonActs O) root h
  unfold canonicalize
  rw [foldl_canon_id O _ hall]
  rfl

/-! ## Further membership helpers -/

theorem filterMap_flatMap {B C D : Type} (l : List B) (f : B → List C)
    (g : C → Option D) :
    (l.flatMap f).filterMap g = l.flatMap fun x => (f x).filterMap g := by
  induction l with
  | nil => simp
  | cons x xs ih => simp [List.flatMap_cons, List.filterMap_append, ih]

theorem buildEdits_mem (c : Nat) (specs : List ProbeSpec) :
    ∀ e ∈ buildEdits c specs, ∃ sp ∈ specs, ∃ k, e = sp.toEdit k := by
  induction specs generalizing c with
  | nil => simp [buildEdits]
  | cons sp rest ih =>
    intro e he
    simp only [buildEdits, List.mem_cons] at he
    rcases he with he | he
    · exact ⟨sp, by simp, c, he⟩
    · obtain ⟨sp', hsp', k, hk⟩ := ih (c + 1) e he
      exact ⟨sp', by simp [hsp'], k, hk⟩

theorem debtCount_zero_of_not_key (d : List (Nat × Nat)) (l : Nat)
    (h : l ∉ d.map Prod.fst) : debtCount l d = 0 := by
  induction d with
  | nil => simp [debtCount]
  | cons kd rest ih =>
    simp only [List.map_cons, List.mem_cons] at h
    push_neg at h
    simp only [debtCount, List.map_cons, List.sum_cons]
    rw [if_neg (fun hx => h.1 hx.symm)]
    have := ih h.2
    simp only [debtCount] at this
    omega

/-- In a sorted debt map, a positive total at a location is realized by
a single entry. -/
theorem debt_mem_of_count (d : List (Nat × Nat)) (hs : DebtSorted d)
    (l c : Nat) (hc : debtCount l d = c) (hpos : 0 < c) : (l, c) ∈ d := by
  induction d with
  | nil => simp [debtCount] at hc; omega
  | cons kd rest ih =>
    obtain ⟨k, v⟩ := kd
    unfold DebtSorted at hs
    rw [List.pairwise_cons] at hs
    by_cases hk : k = l
    · subst hk
      have hnot : k ∉ rest.map Prod.fst := by
        intro hmem
        obtain ⟨q, hq, hq1⟩ := List.mem_map.mp hmem
        have := hs.1 q hq
        omega
      have hrest := debtCount_zero_of_not_key rest k hnot
      have hc2 : v + debtCount k rest = c := by
        simpa [debtCount] using hc
      rw [hrest] at hc2
      have hv : v = c := by omega
      simp [hv]
    · have hc2 : debtCount l rest = c := by
        simpa [debtCount, hk] using hc
      exact List.mem_cons_of_mem _ (ih hs.2 hc2)

/-! ## Fallthrough groups of labels -/

/-- A `case` (`true`) or `default` (`false`) label node. -/
def mkLabel (b : Bool) (i : Info) (s : Stmt) : Stmt :=
  if b then .caseS i s else .defaultS i s

/-- A chain of consecutive labels with no statements between them,
wrapped around an innermost labelled statement. -/
def mkChain : List (Bool × Info) → Stmt → Stmt
  | [], s => s
  | (b, i) :: rest, s => mkLabel b i (mkChain rest s)

theorem containsLabel_mkLabel (b : Bool) (i : Info) (s : Stmt) :
    containsLabel (mkLabel b i s) = true := by
  cases b <;> simp [mkLabel, containsLabel]

theorem containsLabel_mkChain (outs : List (Bool × Info)) (b : Bool)
    (i : Info) (s : Stmt) :
    containsLabel (mkChain outs (mkLabel b i s)) = true := by
  cases outs with
  | nil => exact containsLabel_mkLabel b i s
  | cons p rest =>
    obtain ⟨b0, i0⟩ := p
    exact containsLabel_mkLabel b0 i0 _

/-- Per-node entry anchors of a label whose sub-statement holds another
label: none (the matcher excludes it). -/
theorem nodeProbeSpecs_outer_label (O : Src) (b : Bool) (i : Info)
    (s : Stmt) (hs : containsLabel s = true) :
    nodeProbeSpecs O (mkLabel b i s) = [] := by
  cases b <;>
    simp [mkLabel, nodeProbeSpecs, hs]

/-- Per-node entry anchors of a matched label with a compound
sub-statement. -/
theorem nodeProbeSpecs_inner_label (O : Src) (b : Bool) (il ib : Info)
    (bs : List Stmt) (hmain : il.expFile = O.mainFile)
    (hbs : containsLabelL bs = false) :
    nodeProbeSpecs O (mkLabel b il (Stmt.compound ib bs)) =
      [entrySpec O (Stmt.compound ib bs)] := by
  cases b <;>
    simp [mkLabel, nodeProbeSpecs, hmain, containsLabel, hbs, Stmt.isCompound]

theorem childrenOf_mkLabel (b : Bool) (i : Info) (s : Stmt) :
    (mkLabel b i s).childrenOf = [s] := by
  cases b <;> simp [mkLabel, Stmt.childrenOf]

/-- The whole fallthrough group contributes exactly one probe attempt:
an entry probe at the innermost label's block, followed by whatever the
block's own statements contribute. -/
theorem chain_collect_specs (O : Src) (outs : List (Bool × Info)) (bl : Bool)
    (il ib : Info) (bs : List Stmt) (hmain : il.expFile = O.mainFile)
    (hbs : containsLabelL bs = false) :
    collectT (nodeProbeSpecs O)
        (mkChain outs (mkLabel bl il (Stmt.compound ib bs))) =
      entrySpec O (Stmt.compound ib bs) :: collectTL (nodeProbeSpecs O) bs := by
  induction outs with
  | nil =>
    show collectT (nodeProbeSpecs O) (mkLabel bl il (Stmt.compound ib bs)) = _
    rw [collectT_eq, nodeProbeSpecs_inner_label O bl il ib bs hmain hbs,
      childrenOf_mkLabel]
    simp only [collectTL, List.append_nil]
    rw [collectT_eq]
    simp only [Stmt.childrenOf, nodeProbeSpecs]
    rfl
  | cons p rest ih =>
    obtain ⟨b0, i0⟩ := p
    show collectT (nodeProbeSpecs O) (mkLabel b0 i0 _) = _
    rw [collectT_eq,
      nodeProbeSpecs_outer_label O b0 i0 _ (containsLabel_mkChain rest bl il _),
      childrenOf_mkLabel]
    simp only [collectTL, List.append_nil, List.nil_append]
    exact ih

/-- The canonicalizer actions of the whole fallthrough group: exactly
one body is handled — the innermost label's sub-statement — plus
whatever that statement's own interior contributes. -/
theorem chain_collect_canon (O : Src) (outs : List (Bool × Info)) (bl : Bool)
    (il : Info) (s : Stmt) (hmain : il.expFile = O.mainFile)
    (hs : containsLabel s = false) :
    collectT (canonActs O) (mkChain outs (mkLabel bl il s)) =
      handleStmtActs O s ++ collectT (canonActs O) s := by
  induction outs with
  | nil =>
    show collectT (canonActs O) (mkLabel bl il s) = _
    rw [collectT_eq, childrenOf_mkLabel]
    have hacts : canonActs O (mkLabel bl il s) = handleStmtActs O s := by
      cases bl <;> simp [mkLabel, canonActs, hmain, hs]
    rw [hacts]
    simp [collectTL]
  | cons p rest ih =>
    obtain ⟨b0, i0⟩ := p
    show collectT (canonActs O) (mkLabel b0 i0 _) = _
    have hlab := containsLabel_mkChain rest bl il s
    have hacts : canonActs O (mkLabel b0 i0
        (mkChain rest (mkLabel bl il s))) = [] := by
      revert hlab
      generalize mkChain rest (mkLabel bl il s) = w
      intro hlab
      cases b0 <;> simp [mkLabel, canonActs, hlab]
    rw [collectT_eq, hacts, childrenOf_mkLabel]
    simp only [collectTL, List.append_nil, List.nil_append]
    exact ih

/-! ## Canonical form -/

/-- A compound body has no canonicalizer actions. -/
theorem handleStmtActs_compound (O : Src) (s : Stmt)
    (h : s.isCompound = true) : handleStmtActs O s = [] := by
  unfold handleStmtActs
  simp [h]

/-- The actions on a non-block, non-empty body spelled in the main
file. -/
theorem handleStmtActs_go (O : Src) (s : Stmt)
    (hg : O.fileOf (O.spell s.beginLoc) = O.mainFile)
    (hc : s.isCompound = false) (hn : s.isNull = false) :
    handleStmtActs O s =
      [.edit (O.fileOf (O.spell s.beginLoc)) (O.spell s.beginLoc)
        (.braceOpen (O.tokenAt (O.spell s.beginLoc))),
       .bump (endBoundary O s.endLoc)] := by
  unfold handleStmtActs
  rw [if_neg (by simpa using hg), if_neg (by simp [hc]), if_neg (by simp [hn])]

mutual

/-- The input is in canonical form: every body position that the
canonicalizer's matchers select is already an explicit block. -/
def canonicalForm (O : Src) : Stmt → Bool
  | .compound _ ss => canonicalFormL O ss
  | .nullS _ => true
  | .exprS _ => true
  | .returnS _ => true
  | .breakS _ => true
  | .ifS i t (some e) =>
    (!(i.expFile == O.mainFile) || (t.isCompound && e.isCompound)) &&
      (canonicalForm O t && canonicalForm O e)
  | .ifS i t none =>
    (!(i.expFile == O.mainFile) || t.isCompound) && canonicalForm O t
  | .forS i b =>
    (!(i.expFile == O.mainFile) || b.isCompound) && canonicalForm O b
  | .whileS i b =>
    (!(i.expFile == O.mainFile) || b.isCompound) && canonicalForm O b
  | .doS i b =>
    (!(i.expFile == O.mainFile) || b.isCompound) && canonicalForm O b
  | .rangeForS i b =>
    (!(i.expFile == O.mainFile) || b.isCompound) && canonicalForm O b
  | .switchS _ b => canonicalForm O b
  | .caseS i b =>
    (!(i.expFile == O.mainFile) || (containsLabel b || b.isCompound)) &&
      canonicalForm O b
  | .defaultS i b =>
    (!(i.expFile == O.mainFile) || (containsLabel b || b.isCompound)) &&
      canonicalForm O b

/-- `canonicalForm` over a sibling list. -/
def canonicalFormL (O : Src) : List Stmt → Bool
  | [] => true
  | s :: ss => canonicalForm O s && canonicalFormL O ss

end

theorem canonicalForm_children (O : Src) (n : Stmt)
    (h : canonicalForm O n = true) :
    ∀ c ∈ n.childrenOf, canonicalForm O c = true := by
  cases n with
  | compound i ss =>
    simp only [Stmt.childrenOf]
    intro c hc
    induction ss with
    | nil => simp at hc
    | cons s rest ih =>
      simp only [canonicalForm, canonicalFormL, Bool.and_eq_true] at h
      rcases List.mem_cons.mp hc with h1 | h1
      · rw [h1]; exact h.1
      · exact ih (by simpa [canonicalForm] using h.2) h1
  | ifS i t e =>
    cases e with
    | none =>
      simp only [canonicalForm, Bool.and_eq_true] at h
      simp only [Stmt.childrenOf]
      intro c hc
      rw [List.mem_singleton.mp hc]
      exact h.2
    | some els =>
      simp only [canonicalForm, Bool.and_eq_true] at h
      simp only [Stmt.childrenOf]
      intro c hc
      rcases List.mem_cons.mp hc with h1 | h1
      · rw [h1]; exact h.2.1
      · rw [List.mem_singleton.mp h1]; exact h.2.2
  | forS i b =>
    simp only [canonicalForm, Bool.and_eq_true] at h
    simp only [Stmt.childrenOf]
    intro c hc
    rw [List.mem_singleton.mp hc]
    exact h.2
  | whileS i b =>
    simp only [canonicalForm, Bool.and_eq_true] at h
    simp only [Stmt.childrenOf]
    intro c hc
    rw [List.mem_singleton.mp hc]
    exact h.2
  | doS i b =>
    simp only [canonicalForm, Bool.and_eq_true] at h
    simp only [Stmt.childrenOf]
    intro c hc
    rw [List.mem_singleton.mp hc]
    exact h.2
  | rangeForS i b =>
    simp only [canonicalForm, Bool.and_eq_true] at h
    simp only [Stmt.childrenOf]
    intro c hc
    rw [List.mem_singleton.mp hc]
    exact h.2
  | switchS i b =>
    simp only [canonicalForm] at h
    simp only [Stmt.childrenOf]
    intro c hc
    rw [List.mem_singleton.mp hc]
    exact h
  | caseS i b =>
    simp only [canonicalForm, Bool.and_eq_true] at h
    simp only [Stmt.childrenOf]
    intro c hc
    rw [List.mem_singleton.mp hc]
    exact h.2
  | defaultS i b =>
    simp only [canonicalForm, Bool.and_eq_true] at h
    simp only [Stmt.childrenOf]
    intro c hc
    rw [List.mem_singleton.mp hc]
    exact h.2
  | nullS i => simp [Stmt.childrenOf]
  | exprS i => simp [Stmt.childrenOf]
  | returnS i => simp [Stmt.childrenOf]
  | breakS i => simp [Stmt.childrenOf]

theorem canonActs_of_canonicalForm (O : Src) (n : Stmt)
    (h : canonicalForm O n = true) : canonActs O n = [] := by
  cases n with
  | ifS i t e =>
    cases e with
    | none =>
      simp only [canonicalForm, Bool.and_eq_true, Bool.or_eq_true,
        Bool.not_eq_true', beq_eq_false_iff_ne, ne_eq] at h
      simp only [canonActs]
      split
      · rcases h.1 with h1 | h1
        · exact absurd ‹i.expFile = O.mainFile› h1
        · rw [handleStmtActs_compound O t h1, List.append_nil]
      · rfl
    | some els =>
      simp only [canonicalForm, Bool.and_eq_true, Bool.or_eq_true,
        Bool.not_eq_true', beq_eq_false_iff_ne, ne_eq] at h
      simp only [canonActs]
      split
      · rcases h.1 with h1 | h1
        · exact absurd ‹i.expFile = O.mainFile› h1
        · rw [handleStmtActs_compound O t h1.1,
            handleStmtActs_compound O els h1.2]
          rfl
      · rfl
  | forS i b =>
    simp only [canonicalForm, Bool.and_eq_true, Bool.or_eq_true,
      Bool.not_eq_true', beq_eq_false_iff_ne, ne_eq] at h
    simp only [canonActs]
    split
    · rcases h.1 with h1 | h1
      · exact absurd ‹i.expFile = O.mainFile› h1
      · exact handleStmtActs_compound O b h1
    · rfl
  | whileS i b =>
    simp only [canonicalForm, Bool.and_eq_true, Bool.or_eq_true,
      Bool.not_eq_true', beq_eq_false_iff_ne, ne_eq] at h
    simp only [canonActs]
    split
    · rcases h.1 with h1 | h1
      · exact absurd ‹i.expFile = O.mainFile› h1
      · exact handleStmtActs_compound O b h1
    · rfl
  | doS i b =>
    simp only [canonicalForm, Bool.and_eq_true, Bool.or_eq_true,
      Bool.not_eq_true', beq_eq_false_iff_ne, ne_eq] at h
    simp only [canonActs]
    split
    · rcases h.1 with h1 | h1
      · exact absurd ‹i.expFile = O.mainFile› h1
      · exact handleStmtActs_compound O b h1
    · rfl
  | rangeForS i b =>
    simp only [canonicalForm, Bool.and_eq_true, Bool.or_eq_true,
      Bool.not_eq_true', beq_eq_false_iff_ne, ne_eq] at h
    simp only [canonActs]
    split
    · rcases h.1 with h1 | h1
      · exact absurd ‹i.expFile = O.mainFile› h1
      · exact handleStmtActs_compound O b h1
    · rfl
  | caseS i b =>
    simp only [canonicalForm, Bool.and_eq_true, Bool.or_eq_true,
      Bool.not_eq_true', beq_eq_false_iff_ne, ne_eq] at h
    simp only [canonActs]
    split
    · next hcond =>
      rcases h.1 with h1 | h1
      · exact absurd hcond.1 h1
      · rcases h1 with h2 | h2
        · exact absurd h2 hcond.2
        · exact handleStmtActs_compound O b h2
    · rfl
  | defaultS i b =>
    simp only [canonicalForm, Bool.and_eq_true, Bool.or_eq_true,
      Bool.not_eq_true', beq_eq_false_iff_ne, ne_eq] at h
    simp only [canonActs]
    split
    · next hcond =>
      rcases h.1 with h1 | h1
      · exact absurd hcond.1 h1
      · rcases h1 with h2 | h2
        · exact absurd h2 hcond.2
        · exact handleStmtActs_compound O b h2
    · rfl
  | switchS i b => rfl
  | compound i ss => rfl
  | nullS i => rfl
  | exprS i => rfl
  | returnS i => rfl
  | breakS i => rfl

/-! ## Entry probes precede the same construct's fall-through probe -/

/-- Fall-through probe kind recognizer. -/
def ProbeKind.isFtKind : ProbeKind → Bool
  | .ft _ => true
  | .entry => false

/-- At every node, the attempted probes are some entry probes followed
by at most one fall-through probe (the fall-through matcher is
registered last). -/
theorem nodeProbeSpecs_split (O : Src) (n : Stmt) :
    ∃ ent ftp, nodeProbeSpecs O n = ent ++ ftp ∧
      (∀ sp ∈ ent, sp.kind = ProbeKind.entry) ∧
      (∀ sp ∈ ftp, sp.kind.isFtKind = true) := by
  cases n with
  | ifS i t e =>
    refine ⟨(if i.expFile = O.mainFile ∧ t.isCompound then [entrySpec O t]
        else []) ++
      (match e with
       | some els =>
         if i.expFile = O.mainFile ∧ els.isCompound then [entrySpec O els]
         else []
       | none => []),
      (if (i.expFile = O.mainFile ∧
            containsReturnL (Stmt.ifS i t e).childrenOf)
          ∧ O.fileOf (O.spell (Stmt.ifS i t e).endLoc) = O.mainFile
       then [ftSpec O (Stmt.ifS i t e)] else []), ?_, ?_, ?_⟩
    · simp [nodeProbeSpecs, List.append_assoc]
    · intro sp hsp
      rcases List.mem_append.mp hsp with h1 | h1
      · rw [(mem_ite_singleton h1).2]; rfl
      · cases e with
        | none => simp at h1
        | some els => rw [(mem_ite_singleton h1).2]; rfl
    · intro sp hsp
      rw [(mem_ite_singleton hsp).2]
      rfl
  | forS i b =>
    refine ⟨(if i.expFile = O.mainFile ∧ b.isCompound then [entrySpec O b]
        else []),
      (if (i.expFile = O.mainFile ∧
            containsReturnL (Stmt.forS i b).childrenOf)
          ∧ O.fileOf (O.spell (Stmt.forS i b).endLoc) = O.mainFile
       then [ftSpec O (Stmt.forS i b)] else []), rfl, ?_, ?_⟩
    · intro sp hsp
      rw [(mem_ite_singleton hsp).2]; rfl
    · intro sp hsp
      rw [(mem_ite_singleton hsp).2]; rfl
  | whileS i b =>
    refine ⟨(if i.expFile = O.mainFile ∧ b.isCompound then [entrySpec O b]
        else []),
      (if (i.expFile = O.mainFile ∧
            containsReturnL (Stmt.whileS i b).childrenOf)
          ∧ O.fileOf (O.spell (Stmt.whileS i b).endLoc) = O.mainFile
       then [ftSpec O (Stmt.whileS i b)] else []), rfl, ?_, ?_⟩
    · intro sp hsp
      rw [(mem_ite_singleton hsp).2]; rfl
    · intro sp hsp
      rw [(mem_ite_singleton hsp).2]; rfl
  | doS i b =>
    refine ⟨(if i.expFile = O.mainFile ∧ b.isCompound then [entrySpec O b]
        else []),
      (if (i.expFile = O.mainFile ∧
            containsReturnL (Stmt.doS i b).childrenOf)
          ∧ O.fileOf (O.spell (Stmt.doS i b).endLoc) = O.mainFile
       then [ftSpec O (Stmt.doS i b)] else []), rfl, ?_, ?_⟩
    · intro sp hsp
      rw [(mem_ite_singleton hsp).2]; rfl
    · intro sp hsp
      rw [(mem_ite_singleton hsp).2]; rfl
  | rangeForS i b =>
    refine ⟨(if i.expFile = O.mainFile ∧ b.isCompound then [entrySpec O b]
        else []),
      (if (i.expFile = O.mainFile ∧
            containsReturnL (Stmt.rangeForS i b).childrenOf)
          ∧ O.fileOf (O.spell (Stmt.rangeForS i b).endLoc) = O.mainFile
       then [ftSpec O (Stmt.rangeForS i b)] else []), rfl, ?_, ?_⟩
    · intro sp hsp
      rw [(mem_ite_singleton hsp).2]; rfl
    · intro sp hsp
      rw [(mem_ite_singleton hsp).2]; rfl
  | switchS i b =>
    refine ⟨[], nodeProbeSpecs O (Stmt.switchS i b), rfl, by simp, ?_⟩
    intro sp hsp
    simp only [nodeProbeSpecs] at hsp
    rw [(mem_ite_singleton hsp).2]; rfl
  | caseS i b =>
    refine ⟨nodeProbeSpecs O (Stmt.caseS i b), [], by simp, ?_, by simp⟩
    intro sp hsp
    simp only [nodeProbeSpecs] at hsp
    by_cases hm : i.expFile = O.mainFile ∧ ¬ containsLabel b
    · rw [if_pos hm] at hsp
      rw [(mem_ite_singleton hsp).2]; rfl
    · rw [if_neg hm] at hsp
      simp at hsp
  | defaultS i b =>
    refine ⟨nodeProbeSpecs O (Stmt.defaultS i b), [], by simp, ?_, by simp⟩
    intro sp hsp
    simp only [nodeProbeSpecs] at hsp
    by_cases hm : i.expFile = O.mainFile ∧ ¬ containsLabel b
    · rw [if_pos hm] at hsp
      rw [(mem_ite_singleton hsp).2]; rfl
    · rw [if_neg hm] at hsp
      simp at hsp
  | compound i ss => exact ⟨[], [], rfl, by simp, by simp⟩
  | nullS i => exact ⟨[], [], rfl, by simp, by simp⟩
  | exprS i => exact ⟨[], [], rfl, by simp, by simp⟩
  | returnS i => exact ⟨[], [], rfl, by simp, by simp⟩
  | breakS i => exact ⟨[], [], rfl, by simp, by simp⟩

theorem isEntryText_toEdit (sp : ProbeSpec) (k : Nat)
    (h : isEntryText (sp.toEdit k).text = true) :
    sp.kind = ProbeKind.entry := by
  cases hk : sp.kind with
  | entry => rfl
  | ft tok =>
    rw [show (sp.toEdit k).text = .ftProbe tok k from by
      simp [ProbeSpec.toEdit, hk]] at h
    simp [isEntryText] at h

theorem isFtText_toEdit (sp : ProbeSpec) (k : Nat)
    (h : isFtText (sp.toEdit k).text = true) :
    sp.kind.isFtKind = true := by
  cases hk : sp.kind with
  | entry =>
    rw [show (sp.toEdit k).text = .entryProbe k from by
      simp [ProbeSpec.toEdit, hk]] at h
    simp [isFtText] at h
  | ft tok => simp [ProbeKind.isFtKind]

/-- Among the edits one node's visit appends, every entry probe carries
a smaller marker id than the fall-through probe. -/
theorem buildEdits_entry_lt_ft (c : Nat) (ent ftp : List ProbeSpec)
    (hent : ∀ sp ∈ ent, sp.kind = ProbeKind.entry)
    (hftp : ∀ sp ∈ ftp, sp.kind.isFtKind = true) :
    ∀ e1 ∈ buildEdits c (ent ++ ftp), ∀ e2 ∈ buildEdits c (ent ++ ftp),
      isEntryText e1.text = true → isFtText e2.text = true →
      ∀ a b, callId e1.text = some a → callId e2.text = some b → a < b := by
  intro e1 he1 e2 he2 hen hft a b ha hb
  rw [buildEdits_append] at he1 he2
  have he1' : e1 ∈ buildEdits c ent := by
    rcases List.mem_append.mp he1 with h1 | h1
    · exact h1
    · obtain ⟨sp, hsp, k, hk⟩ := buildEdits_mem _ _ e1 h1
      subst hk
      have hkind := isEntryText_toEdit sp k hen
      have := hftp sp hsp
      rw [hkind] at this
      simp [ProbeKind.isFtKind] at this
  have he2' : e2 ∈ buildEdits (c + ent.length) ftp := by
    rcases List.mem_append.mp he2 with h1 | h1
    · obtain ⟨sp, hsp, k, hk⟩ := buildEdits_mem _ _ e2 h1
      subst hk
      have hkind := isFtText_toEdit sp k hft
      have := hent sp hsp
      rw [this] at hkind
      simp [ProbeKind.isFtKind] at hkind
    · exact h1
  have hb1 := buildEdits_id_bounds c ent e1 he1' a ha
  have hb2 := buildEdits_id_bounds (c + ent.length) ftp e2 he2' b hb
  omega

/-! ## Specification-side model definitions

These definitions follow the specification's words (not the source) and
exist only to be compared with the behaviour of the embedded code. -/

/-- Modelled from the spec: the probe sites of "a single pre-order walk
of the syntax tree, visiting a construct's entry-probe site before its
fall-through-probe site"; the marker id of a site is its index in this
list. -/
def specPreorderSites (O : Src) (root : Stmt) : List ProbeSpec :=
  collectT (nodeProbeSpecs O) root

/-- The id the spec's pre-order walk assigns to the entry probe anchored
at location `l`. -/
def specPreorderEntryIdAt (O : Src) (root : Stmt) (l : Nat) : Option Nat :=
  (specPreorderSites O root).findIdx? fun sp =>
    sp.kind == ProbeKind.entry && sp.loc == l

/-- The id the instrumenter's edits carry at the entry probe anchored at
location `l`. -/
def entryIdAt (es : List Edit) (l : Nat) : Option Nat :=
  es.findSome? fun e =>
    match e.text with
    | .entryProbe k => if e.loc = l then some k else none
    | _ => none

/-- Modelled from the spec: a case/default body is "the run of
statements after a label up to (but not including) the next label or the
switch's closing brace"; this computes that run from the label's
sub-statement and the following siblings in the switch's compound. -/
def specCaseRun (sub : Stmt) (rest : List Stmt) : List Stmt :=
  sub :: rest.takeWhile fun t => !(isLabel t)

/-- Modelled from the spec: the end boundary of the claimed case body —
the boundary of the run's last statement. -/
def specCaseRunBoundary (O : Src) (sub : Stmt) (rest : List Stmt) : Nat :=
  endBoundary O ((specCaseRun sub rest).getLastD sub).endLoc

/-- Modelled from the spec: "if the body's last token is immediately
followed by a terminating `;`, the boundary is the position right after
that `;`; otherwise it is the start of the next token." -/
def specEndBoundary (O : Src) (endL : Nat) : Nat :=
  match O.nextTok endL with
  | some l => l
  | none => endL

/-- Run-level entry anchors: the entry probes of a clean run are exactly
the entry anchors of the visited nodes. -/
theorem instrument_entry_locs (O : Src) (root : Stmt)
    (h : (instrument O root).rep.clean = true) :
    (instrument O root).rep.edits.filterMap entryLocOf =
      (visitOrder root).flatMap (entryAnchors O) := by
  obtain ⟨hc, he⟩ := instrument_chars O root h
  rw [he, List.filterMap_append, buildEdits_entryLocs]
  have hdecl : (if (allProbeSpecs O root).length = 0 then ([] : List Edit)
      else [⟨O.fileOf (O.spell O.fileBegin), O.spell O.fileBegin,
        .declsHeader (allProbeSpecs O root).length
          (O.tokenAt (O.spell O.fileBegin))⟩]).filterMap entryLocOf = [] := by
    split <;> simp [entryLocOf]
  rw [hdecl, List.append_nil]
  unfold allProbeSpecs
  rw [filterMap_flatMap]
  rfl

/-! ## Remaining helpers for the claims -/

/-- A wrapper with a single statement child is visited just before its
child's subtree. -/
theorem visitOrder_wrap (n s : Stmt) (h : n.childrenOf = [s]) :
    visitOrder n = n :: visitOrder s := by
  unfold visitOrder
  rw [batchesS_eq, h]
  simp [batchesL]

/-- With pairwise-distinct (file, location), an edit is determined by
its file and location. -/
theorem editsPD_unique {es : List Edit} (h : EditsPD es) {e d : Edit}
    (he : e ∈ es) (hd : d ∈ es) (hf : e.file = d.file) (hl : e.loc = d.loc) :
    e = d := by
  induction es with
  | nil => simp at he
  | cons x xs ih =>
    unfold EditsPD at h
    rw [List.pairwise_cons] at h
    rcases List.mem_cons.mp he with he1 | he1 <;>
      rcases List.mem_cons.mp hd with hd1 | hd1
    · rw [he1, hd1]
    · subst he1
      exact absurd ⟨hf, hl⟩ (h.1 d hd1)
    · subst hd1
      exact absurd ⟨hf.symm, hl.symm⟩ (h.1 e he1)
    · exact ih h.2 he1 hd1

/-- A node whose expansion location is outside the main file matches no
canonicalizer matcher. -/
theorem canonActs_nonmain (O : Src) (n : Stmt)
    (h : n.info.expFile ≠ O.mainFile) : canonActs O n = [] := by
  cases n with
  | ifS i t e =>
    cases e <;> (simp only [canonActs]; rw [if_neg (by simpa [Stmt.info] using h)])
  | forS i b =>
    simp only [canonActs]
    rw [if_neg (by simpa [Stmt.info] using h)]
  | whileS i b =>
    simp only [canonActs]
    rw [if_neg (by simpa [Stmt.info] using h)]
  | doS i b =>
    simp only [canonActs]
    rw [if_neg (by simpa [Stmt.info] using h)]
  | rangeForS i b =>
    simp only [canonActs]
    rw [if_neg (by simpa [Stmt.info] using h)]
  | caseS i b =>
    simp only [canonActs]
    rw [if_neg (by simp only [Stmt.info] at h; tauto)]
  | defaultS i b =>
    simp only [canonActs]
    rw [if_neg (by simp only [Stmt.info] at h; tauto)]
  | switchS i b => rfl
  | compound i ss => rfl
  | nullS i => rfl
  | exprS i => rfl
  | returnS i => rfl
  | breakS i => rfl

/-- A node whose expansion location is outside the main file matches no
instrumenter matcher. -/
theorem nodeProbeSpecs_nonmain (O : Src) (n : Stmt)
    (h : n.info.expFile ≠ O.mainFile) : nodeProbeSpecs O n = [] := by
  cases n with
  | ifS i t e =>
    simp only [Stmt.info] at h
    cases e <;>
      (simp only [nodeProbeSpecs]
       rw [if_neg (by tauto), if_neg (by tauto)]
       try rw [if_neg (by tauto)]) <;> rfl
  | forS i b =>
    simp only [Stmt.info] at h
    simp only [nodeProbeSpecs]
    rw [if_neg (by tauto), if_neg (by tauto)]
    rfl
  | whileS i b =>
    simp only [Stmt.info] at h
    simp only [nodeProbeSpecs]
    rw [if_neg (by tauto), if_neg (by tauto)]
    rfl
  | doS i b =>
    simp only [Stmt.info] at h
    simp only [nodeProbeSpecs]
    rw [if_neg (by tauto), if_neg (by tauto)]
    rfl
  | rangeForS i b =>
    simp only [Stmt.info] at h
    simp only [nodeProbeSpecs]
    rw [if_neg (by tauto), if_neg (by tauto)]
    rfl
  | switchS i b =>
    simp only [Stmt.info] at h
    simp only [nodeProbeSpecs]
    rw [if_neg (by tauto)]
  | caseS i b =>
    simp only [Stmt.info] at h
    simp only [nodeProbeSpecs]
    rw [if_neg (by tauto)]
  | defaultS i b =>
    simp only [Stmt.info] at h
    simp only [nodeProbeSpecs]
    rw [if_neg (by tauto)]
  | compound i ss => rfl
  | nullS i => rfl
  | exprS i => rfl
  | returnS i => rfl
  | breakS i => rfl

/-- Body-opening replacement texts (the canonicalizer's `{}` and
`{tok`). -/
def isBodyOpenText : EditText → Bool
  | .braceOpen _ => true
  | .emptyBlock => true
  | _ => false

/-- Every edit action of `handleStmt` is a body-opening replacement in
the main file. -/
theorem handleStmtActs_edit_mem (O : Src) (s : Stmt) :
    ∀ e ∈ (handleStmtActs O s).filterMap CAct.editPart,
      e.file = O.mainFile ∧ isBodyOpenText e.text = true := by
  unfold handleStmtActs
  by_cases hg : O.fileOf (O.spell s.beginLoc) ≠ O.mainFile
  · rw [if_pos hg]
    simp
  · rw [if_neg hg]
    push_neg at hg
    by_cases hcpd : s.isCompound
    · rw [if_pos hcpd]
      simp
    · rw [if_neg hcpd]
      by_cases hnull : s.isNull
      · rw [if_pos hnull]
        intro e he
        simp only [List.filterMap_cons, CAct.editPart, List.filterMap_nil] at he
        rw [List.mem_singleton.mp he]
        exact ⟨hg, rfl⟩
      · rw [if_neg hnull]
        intro e he
        simp only [List.filterMap_cons, CAct.editPart, List.filterMap_nil] at he
        rw [List.mem_singleton.mp he]
        exact ⟨hg, rfl⟩

/-- Every edit action at any node is a body-opening replacement in the
main file. -/
theorem canonActs_edit_mem (O : Src) (n : Stmt) :
    ∀ e ∈ (canonActs O n).filterMap CAct.editPart,
      e.file = O.mainFile ∧ isBodyOpenText e.text = true := by
  cases n with
  | ifS i t e =>
    cases e with
    | none =>
      simp only [canonActs]
      split
      · simpa using handleStmtActs_edit_mem O t
      · simp
    | some els =>
      simp only [canonActs]
      split
      · intro e he
        rw [List.filterMap_append] at he
        rcases List.mem_append.mp he with h1 | h1
        · exact handleStmtActs_edit_mem O t e h1
        · exact handleStmtActs_edit_mem O els e h1
      · simp
  | forS i b =>
    simp only [canonActs]
    split
    · exact handleStmtActs_edit_mem O b
    · simp
  | whileS i b =>
    simp only [canonActs]
    split
    · exact handleStmtActs_edit_mem O b
    · simp
  | doS i b =>
    simp only [canonActs]
    split
    · exact handleStmtActs_edit_mem O b
    · simp
  | rangeForS i b =>
    simp only [canonActs]
    split
    · exact handleStmtActs_edit_mem O b
    · simp
  | caseS i b =>
    simp only [canonActs]
    split
    · exact handleStmtActs_edit_mem O b
    · simp
  | defaultS i b =>
    simp only [canonActs]
    split
    · exact handleStmtActs_edit_mem O b
    · simp
  | switchS i b => simp [canonActs]
  | compound i ss => simp [canonActs]
  | nullS i => simp [canonActs]
  | exprS i => simp [canonActs]
  | returnS i => simp [canonActs]
  | breakS i => simp [canonActs]

/-- Constructs with expansion location outside the main file yield a
byte-identical file from both passes. -/
def mainMarks (O : Src) (n : Stmt) : List Nat :=
  if n.info.expFile = O.mainFile then [n.info.beg] else []

/-! ## Concrete translation units

`swO`/`swTU` encode the canonicalized input of the repository test
`DCEInstrumentTool switch` (`test/dcei_test`):

  int foo(int a){ switch(a){
    case 1: { a = 2; } break;
    case 2: case 3:{ break; }
    case 4:{ return 3; }
    case 5:{ a = 5; }
    default:{ a = 42; } }
  return a; }

Location 0 is the start of the file, 120 the switch's closing brace,
130 the trailing `return`; each case's block brace is at 40, 60, 72,
82, 92 respectively. -/
def swO : Src where
  tokenAt := fun l =>
    if l = 0 then "int" else if l = 120 then "\x7d" else "?"
  nextTok := fun l =>
    if l = 120 then some 130 else if l = 43 then some 44 else none
  isSemiAt := fun l => l = 47 || l = 62 || l = 75 || l = 85 || l = 95 || l = 133
  valid := fun _ => true
  buf := fun _ => 0
  spell := fun l => l
  fileOf := fun _ => 0
  mainFile := 0
  fileBegin := 0

/-- The statement tree of the switch test (function body of `foo`). -/
def swTU : Stmt :=
  .compound ⟨10, 200, 0⟩
    [ .switchS ⟨20, 120, 0⟩
        (.compound ⟨30, 120, 0⟩
          [ .caseS ⟨31, 44, 0⟩ (.compound ⟨40, 44, 0⟩ [.exprS ⟨41, 43, 0⟩]),
            .breakS ⟨46, 46, 0⟩,
            .caseS ⟨50, 64, 0⟩
              (.caseS ⟨55, 64, 0⟩
                (.compound ⟨60, 64, 0⟩ [.breakS ⟨61, 61, 0⟩])),
            .caseS ⟨70, 76, 0⟩ (.compound ⟨72, 76, 0⟩ [.returnS ⟨73, 74, 0⟩]),
            .caseS ⟨80, 86, 0⟩ (.compound ⟨82, 86, 0⟩ [.exprS ⟨83, 84, 0⟩]),
            .defaultS ⟨90, 96, 0⟩
              (.compound ⟨92, 96, 0⟩ [.exprS ⟨93, 94, 0⟩]) ]),
      .returnS ⟨130, 132, 0⟩ ]

/-- The model reproduces the repository's `DCEInstrumentTool switch`
test verbatim: the fall-through probe of the switch is marker 0 at the
switch's closing brace, the five case entries get markers 1..5 — the
nested `case 3:` block last — and six forward declarations are spliced
at the start of the file. -/
theorem instrument_matches_switch_test :
    instrument swO swTU =
      ⟨⟨[⟨0, 120, .ftProbe "\x7d" 0⟩,
         ⟨0, 40, .entryProbe 1⟩,
         ⟨0, 72, .entryProbe 2⟩,
         ⟨0, 82, .entryProbe 3⟩,
         ⟨0, 92, .entryProbe 4⟩,
         ⟨0, 60, .entryProbe 5⟩,
         ⟨0, 0, .declsHeader 6 "int"⟩], 0, false⟩, 6⟩ := by
  decide

/-- `forO`/`forTU` encode the spec's shared-boundary example
`for(;;) if (a>0) a=1;`: the `if` begins at 10, the assignment at 20,
its last token at 23 and the shared terminating `;` at 24. -/
def forO : Src where
  tokenAt := fun l =>
    if l = 10 then "if" else if l = 20 then "a" else if l = 24 then ";" else "?"
  nextTok := fun l =>
    if l = 23 then some 24 else if l = 24 then some 30 else none
  isSemiAt := fun l => l = 24
  valid := fun _ => true
  buf := fun _ => 0
  spell := fun l => l
  fileOf := fun _ => 0
  mainFile := 0
  fileBegin := 0

/-- `for(;;) if (a>0) a=1;`. -/
def forTU : Stmt :=
  .forS ⟨0, 23, 0⟩ (.ifS ⟨10, 23, 0⟩ (.exprS ⟨20, 23, 0⟩) none)

/-- The model reproduces the spec's shared-boundary example: both body
braces open before their first tokens and the single flush edit at the
shared `;` closes both bodies, `;\x7d\x7d`. -/
theorem canonicalize_matches_shared_boundary :
    canonicalize forO forTU =
      ⟨⟨[⟨0, 10, .braceOpen "if"⟩,
         ⟨0, 20, .braceOpen "a"⟩,
         ⟨0, 24, .closeBraces ";" 2⟩], 0, false⟩, [(24, 2)]⟩ := by
  decide

/-! ## The claims -/

theorem callIds_append (a b : List Edit) :
    callIds (a ++ b) = callIds a ++ callIds b := by
  unfold callIds
  rw [List.filterMap_append]

/-- C2: whenever the Marker Instrumenter inserts N > 0 probe calls into
a translation unit (a clean run), the probe ids appearing at call sites
are exactly the integers 0..N-1 with no gaps or repeats; exactly one
edit is emitted at the very start of the file, containing N forward
declarations in ascending order of id followed by the original leading
token; and the number of forward declarations equals the number of probe
call sites inserted. -/
theorem c2_probe_conservation (O : Src) (root : Stmt)
    (hclean : (instrument O root).rep.clean = true)
    (hn : 0 < (instrument O root).counter) :
    callIds (instrument O root).rep.edits =
      List.range (instrument O root).counter ∧
    (⟨O.fileOf (O.spell O.fileBegin), O.spell O.fileBegin,
        .declsHeader (instrument O root).counter
          (O.tokenAt (O.spell O.fileBegin))⟩ : Edit) ∈
      (instrument O root).rep.edits ∧
    (∀ e ∈ (instrument O root).rep.edits,
        e.file = O.fileOf (O.spell O.fileBegin) →
        e.loc = O.spell O.fileBegin →
        e = ⟨O.fileOf (O.spell O.fileBegin), O.spell O.fileBegin,
          .declsHeader (instrument O root).counter
            (O.tokenAt (O.spell O.fileBegin))⟩) ∧
    (callIds (instrument O root).rep.edits).length =
      (instrument O root).counter ∧
    (EditText.declsHeader (instrument O root).counter
        (O.tokenAt (O.spell O.fileBegin))).render =
      String.join ((List.range (instrument O root).counter).map dceDeclStr)
        ++ O.tokenAt (O.spell O.fileBegin) := by
  obtain ⟨hc, he⟩ := instrument_chars O root hclean
  have hlen : ¬((allProbeSpecs O root).length = 0) := by omega
  have hids : callIds (instrument O root).rep.edits =
      List.range (instrument O root).counter := by
    rw [he, if_neg hlen, callIds_append, callIds_buildEdits]
    simp only [callIds, List.filterMap_cons, callId, List.filterMap_nil,
      List.append_nil]
    rw [hc, List.range_eq_range']
  have hmem : (⟨O.fileOf (O.spell O.fileBegin), O.spell O.fileBegin,
      .declsHeader (instrument O root).counter
        (O.tokenAt (O.spell O.fileBegin))⟩ : Edit) ∈
      (instrument O root).rep.edits := by
    rw [hc, he, if_neg hlen]
    exact List.mem_append_right _ (by simp)
  refine ⟨hids, hmem, ?_, by rw [hids]; simp, rfl⟩
  intro e hemem hf hl
  exact editsPD_unique (instrument_pd O root) hemem hmem hf hl

/-- Witness for C2 at the repository's switch test: six probes, ids
0..5, one declaration header at file start. -/
theorem c2_probe_conservation_witness :
    (instrument swO swTU).rep.clean = true ∧
    callIds (instrument swO swTU).rep.edits =
      List.range (instrument swO swTU).counter :=
  ⟨by decide, (c2_probe_conservation swO swTU (by decide) (by decide)).1⟩

/-- C4: the Statement Canonicalizer is idempotent — on an input whose
matched body positions are already explicit blocks, the full pass
produces the empty edit set (and no debt, no diagnostics, no abort). -/
theorem c4_idempotent (O : Src) (root : Stmt)
    (h : canonicalForm O root = true) :
    canonicalize O root = CanonState.init := by
  have hall : ∀ n ∈ visitOrder root, canonicalForm O n = true :=
    visitOrder_forall (fun s => canonicalForm O s = true)
      (canonicalForm_children O) root h
  unfold canonicalize
  rw [foldl_canon_id O _ (fun n hn => canonActs_of_canonicalForm O n (hall n hn))]
  rfl

/-- Witness for C4: the canonicalized switch test is in canonical form
and the canonicalizer leaves it untouched. -/
theorem c4_idempotent_witness :
    canonicalForm swO swTU = true ∧ canonicalize swO swTU = CanonState.init :=
  ⟨by decide, c4_idempotent swO swTU (by decide)⟩

/-- C6: at end of traversal the canonicalizer flushes each boundary
location exactly once — every debt entry `(l, d)` yields its flush edit
(present in the final edit set), whose text is the original token at `l`
followed by `d` copies of `\x7d`; the debt map holds each location at
most once (strictly sorted keys); and no two final edits rewrite the
same location, so nested bodies sharing a boundary are closed by that
one edit. -/
theorem c6_flush_once (O : Src) (root : Stmt)
    (hclean : (canonicalize O root).rep.clean = true) :
    (∀ ld ∈ (canonicalize O root).debt,
        flushEditOf O ld ∈ (canonicalize O root).rep.edits) ∧
    (∀ ld : Nat × Nat, (flushEditOf O ld).text.render =
        O.tokenAt (O.spell ld.1) ++ (List.replicate ld.2 '\x7d').asString) ∧
    DebtSorted (canonicalize O root).debt ∧
    (∀ e1 ∈ (canonicalize O root).rep.edits,
     ∀ e2 ∈ (canonicalize O root).rep.edits,
        e1.file = e2.file → e1.loc = e2.loc → e1 = e2) := by
  obtain ⟨he, _⟩ := canonicalize_chars O root hclean
  refine ⟨?_, fun ld => rfl, canonicalize_sorted O root, ?_⟩
  · intro ld hld
    rw [he]
    exact List.mem_append_right _ (List.mem_map_of_mem (flushEditOf O) hld)
  · intro e1 h1 e2 h2 hf hl
    exact editsPD_unique (canonicalize_pd O root) h1 h2 hf hl

/-- Witness for C6 at the spec's shared-boundary example: the debt entry
`(24, 2)` — two bodies ending at the shared `;` — is flushed by the
single edit `;\x7d\x7d` present in the final edit set. -/
theorem c6_flush_once_witness :
    (canonicalize forO forTU).rep.clean = true ∧
    flushEditOf forO (24, 2) ∈ (canonicalize forO forTU).rep.edits :=
  ⟨by decide, (c6_flush_once forO forTU (by decide)).1 (24, 2) (by decide)⟩

theorem entryAnchors_outer_label (O : Src) (b : Bool) (i : Info) (s : Stmt)
    (hs : containsLabel s = true) : entryAnchors O (mkLabel b i s) = [] := by
  unfold entryAnchors
  rw [nodeProbeSpecs_outer_label O b i s hs]
  rfl

theorem entryAnchors_inner_label (O : Src) (b : Bool) (il ib : Info)
    (bs : List Stmt) (hmain : il.expFile = O.mainFile)
    (hbs : containsLabelL bs = false) :
    entryAnchors O (mkLabel b il (.compound ib bs)) = [O.spell ib.beg] := by
  unfold entryAnchors
  rw [nodeProbeSpecs_inner_label O b il ib bs hmain hbs]
  rfl

theorem entryAnchors_compound (O : Src) (i : Info) (ss : List Stmt) :
    entryAnchors O (.compound i ss) = [] := rfl

theorem entryAnchors_switch (O : Src) (i : Info) (b : Stmt) :
    entryAnchors O (.switchS i b) = [] := by
  simp only [entryAnchors, nodeProbeSpecs]
  split <;> rfl

theorem chain_collect_entry (O : Src) (outs : List (Bool × Info)) (bl : Bool)
    (il ib : Info) (bs : List Stmt) (hmain : il.expFile = O.mainFile)
    (hbs : containsLabelL bs = false) :
    collectT (entryAnchors O)
        (mkChain outs (mkLabel bl il (.compound ib bs))) =
      O.spell ib.beg :: collectTL (entryAnchors O) bs := by
  induction outs with
  | nil =>
    show collectT (entryAnchors O) (mkLabel bl il (.compound ib bs)) = _
    rw [collectT_eq, entryAnchors_inner_label O bl il ib bs hmain hbs,
      childrenOf_mkLabel]
    simp only [collectTL, List.append_nil]
    rw [collectT_eq]
    simp only [Stmt.childrenOf]
    rw [entryAnchors_compound]
    rfl
  | cons p rest ih =>
    obtain ⟨b0, i0⟩ := p
    show collectT (entryAnchors O) (mkLabel b0 i0 _) = _
    rw [collectT_eq,
      entryAnchors_outer_label O b0 i0 _ (containsLabel_mkChain rest bl il _),
      childrenOf_mkLabel]
    simp only [collectTL, List.append_nil, List.nil_append]
    exact ih

/-- C7: for a fallthrough group of consecutive case/default labels
sharing one body (the innermost label's block), a clean instrumenter run
inserts exactly one entry probe anchored at the last label's block — the
group as a whole contributes exactly one entry anchor (not one per
label), and in the whole run exactly one entry probe sits at that
block's `{`. -/
theorem c7_fallthrough_group (O : Src) (isw ic : Info)
    (outs : List (Bool × Info)) (bl : Bool) (il ib : Info)
    (bs pre post : List Stmt)
    (hmain : il.expFile = O.mainFile)
    (hbs : containsLabelL bs = false)
    (hclean : (instrument O (.switchS isw (.compound ic
        (pre ++ mkChain outs (mkLabel bl il (.compound ib bs)) :: post)))).rep.clean
      = true)
    (hpre : (collectTL (entryAnchors O) pre).count (O.spell ib.beg) = 0)
    (hpost : (collectTL (entryAnchors O) post).count (O.spell ib.beg) = 0)
    (hbsc : (collectTL (entryAnchors O) bs).count (O.spell ib.beg) = 0) :
    collectT (entryAnchors O)
        (mkChain outs (mkLabel bl il (.compound ib bs))) =
      O.spell ib.beg :: collectTL (entryAnchors O) bs ∧
    ((instrument O (.switchS isw (.compound ic
        (pre ++ mkChain outs (mkLabel bl il (.compound ib bs)) :: post)))).rep.edits.filterMap
          entryLocOf).count (O.spell ib.beg) = 1 := by
  have hchain := chain_collect_entry O outs bl il ib bs hmain hbs
  refine ⟨hchain, ?_⟩
  rw [instrument_entry_locs O _ hclean]
  rw [(visitOrder_flatMap_perm (entryAnchors O) _).count_eq]
  rw [collectT_eq]
  simp only [Stmt.childrenOf]
  rw [entryAnchors_switch]
  simp only [List.nil_append, collectTL, List.append_nil]
  rw [collectT_eq]
  simp only [Stmt.childrenOf]
  rw [entryAnchors_compound]
  simp only [List.nil_append]
  rw [collectTL_append]
  simp only [collectTL]
  rw [hchain]
  simp only [List.count_append, List.count_cons]
  rw [hpre, hpost, hbsc]
  simp

/-- The spec's fallthrough example `switch(a){case 1: case 2: {a=1;}
break;}` after canonicalization: the group's block `{` is at 22. -/
def c7O : Src where
  tokenAt := fun l => if l = 300 then "int" else "?"
  nextTok := fun _ => none
  isSemiAt := fun _ => false
  valid := fun _ => true
  buf := fun _ => 0
  spell := fun l => l
  fileOf := fun _ => 0
  mainFile := 0
  fileBegin := 300

/-- Witness for C7 at the spec's example: exactly one entry probe,
anchored at `case 2:`'s block. -/
theorem c7_fallthrough_group_witness :
    ((instrument c7O (.switchS ⟨0, 50, 0⟩ (.compound ⟨5, 50, 0⟩
        ([] ++ mkChain [(true, ⟨6, 30, 0⟩)]
          (mkLabel true ⟨14, 30, 0⟩
            (.compound ⟨22, 30, 0⟩ [.exprS ⟨23, 27, 0⟩])) ::
          [.breakS ⟨32, 32, 0⟩])))).rep.edits.filterMap
      entryLocOf).count 22 = 1 :=
  (c7_fallthrough_group c7O ⟨0, 50, 0⟩ ⟨5, 50, 0⟩ [(true, ⟨6, 30, 0⟩)] true
    ⟨14, 30, 0⟩ ⟨22, 30, 0⟩ [.exprS ⟨23, 27, 0⟩] [] [.breakS ⟨32, 32, 0⟩]
    (by decide) (by decide) (by decide) (by decide) (by decide) (by decide)).2

/-- C9: a non-compound body violates the instrumenter's precondition,
and the offending site is silently passed over — as then-branch of an
`if` or as a case body it yields no entry anchor, and a translation unit
whose only candidate body is that non-compound statement is left in the
initial state: no edits, no diagnostics, no abort. -/
theorem c9_noncompound_silently_skipped (O : Src) (i1 i2 i3 : Info)
    (s : Stmt) (hnc : s.isCompound = false)
    (hnr : containsReturn s = false)
    (hin : collectT (nodeProbeSpecs O) s = []) :
    entryAnchors O (.ifS i1 s none) = [] ∧
    entryAnchors O (.caseS i3 s) = [] ∧
    instrument O (.ifS i1 s none) = InstrState.init ∧
    instrument O (.switchS i1 (.compound i2 [.caseS i3 s]))
      = InstrState.init ∧
    InstrState.init.rep.edits = [] ∧
    InstrState.init.rep.diags = 0 ∧
    InstrState.init.rep.died = false := by
  have h1 : nodeProbeSpecs O (.ifS i1 s none) = [] := by
    simp only [nodeProbeSpecs]
    rw [if_neg (by simp [hnc]),
      if_neg (by simp [Stmt.childrenOf, containsReturnL, hnr])]
    rfl
  have h2 : nodeProbeSpecs O (.caseS i3 s) = [] := by
    simp [nodeProbeSpecs, hnc]
  have hswn : nodeProbeSpecs O
      (.switchS i1 (.compound i2 [.caseS i3 s])) = [] := by
    simp [nodeProbeSpecs, Stmt.childrenOf, containsReturnL, containsReturn,
      hnr]
  refine ⟨?_, ?_, ?_, ?_, rfl, rfl, rfl⟩
  · unfold entryAnchors
    rw [h1]
    rfl
  · unfold entryAnchors
    rw [h2]
    rfl
  · refine instrument_nil O _ ?_
    simp [collectT, collectTL, h1, hin]
  · refine instrument_nil O _ ?_
    have hcomp : nodeProbeSpecs O (.compound i2 [.caseS i3 s]) = [] := rfl
    simp [collectT, collectTL, hswn, hcomp, h2, hin]

/-- Witness for C9: a bare expression statement as an unbraced then
branch and as an unbraced case body — the instrumenter leaves both
translation units untouched. -/
theorem c9_noncompound_silently_skipped_witness :
    instrument c7O (.ifS ⟨0, 9, 0⟩ (.exprS ⟨5, 7, 0⟩) none)
      = InstrState.init ∧
    instrument c7O (.switchS ⟨0, 9, 0⟩ (.compound ⟨3, 9, 0⟩
      [.caseS ⟨4, 8, 0⟩ (.exprS ⟨5, 7, 0⟩)])) = InstrState.init := by
  have h := c9_noncompound_silently_skipped c7O ⟨0, 9, 0⟩ ⟨3, 9, 0⟩
    ⟨4, 8, 0⟩ (.exprS ⟨5, 7, 0⟩) (by decide) (by decide) (by decide)
  exact ⟨h.2.2.1, h.2.2.2.1⟩

/-- C3 (amended): marker assignment is reproducible — the probes a
construct receives depend only on the construct and the id counter at
the moment its callbacks fire, not on the rest of the run's history —
and within one construct every entry probe carries a smaller id than
the same construct's fall-through probe.  The single fixed traversal
order is the match engine's enqueue-time order `visitOrder` (a node's
callbacks fire when its parent is expanded during the visitor's
depth-first data recursion, so children are numbered in sibling
batches, batches in parent-expansion order), not a pre-order walk: a
clean run's edit list is exactly the probe attempts along `visitOrder`,
numbered consecutively from 0, followed by the declaration header. -/
theorem c3_fixed_order_entry_before_ft (O : Src) (st1 st2 : InstrState)
    (n root : Stmt) (h1 : (instrNode O st1 n).rep.clean = true)
    (h2 : (instrNode O st2 n).rep.clean = true)
    (hc : st1.counter = st2.counter)
    (hr : (instrument O root).rep.clean = true) :
    ((instrNode O st1 n).rep.edits.drop st1.rep.edits.length =
      (instrNode O st2 n).rep.edits.drop st2.rep.edits.length) ∧
    (instrument O root).rep.edits =
      buildEdits 0 ((visitOrder root).flatMap (nodeProbeSpecs O)) ++
        (if ((visitOrder root).flatMap (nodeProbeSpecs O)).length = 0
         then []
         else [⟨O.fileOf (O.spell O.fileBegin), O.spell O.fileBegin,
           .declsHeader ((visitOrder root).flatMap (nodeProbeSpecs O)).length
             (O.tokenAt (O.spell O.fileBegin))⟩]) ∧
    (∀ e1 ∈ (instrNode O st1 n).rep.edits.drop st1.rep.edits.length,
     ∀ e2 ∈ (instrNode O st1 n).rep.edits.drop st1.rep.edits.length,
       isEntryText e1.text = true → isFtText e2.text = true →
       ∀ a b, callId e1.text = some a → callId e2.text = some b →
         a < b) := by
  obtain ⟨he1, _, _, _⟩ := instrNode_spec O st1 n h1
  obtain ⟨he2, _, _, _⟩ := instrNode_spec O st2 n h2
  refine ⟨?_, ?_, ?_⟩
  · rw [he1, he2, List.drop_left, List.drop_left, hc]
  · exact (instrument_chars O root hr).2
  · intro e1 h1m e2 h2m hen hft a b ha hb
    rw [he1, List.drop_left] at h1m h2m
    obtain ⟨ent, ftp, hsplit, hent, hftp⟩ := nodeProbeSpecs_split O n
    rw [hsplit] at h1m h2m
    exact buildEdits_entry_lt_ft st1.counter ent ftp hent hftp
      e1 h1m e2 h2m hen hft a b ha hb

/-- Counterexample to C3's pre-order wording: in the repository switch
test the entry probe at the nested `case 3:` block (location 60)
carries id 5 in the actual run, while the claimed single pre-order walk
assigns that site id 2 (and assigns id 3 to the `case 4:` block, which
actually carries id 2). -/
theorem c3_preorder_counterexample :
    entryIdAt (instrument swO swTU).rep.edits 60 = some 5 ∧
    specPreorderEntryIdAt swO swTU 60 = some 2 ∧
    entryIdAt (instrument swO swTU).rep.edits 60 ≠
      specPreorderEntryIdAt swO swTU 60 ∧
    entryIdAt (instrument swO swTU).rep.edits 72 = some 2 ∧
    specPreorderEntryIdAt swO swTU 72 = some 3 := by
  decide

/-- Witness for C3 (amended) on an `if` with a compound `return` body:
the callbacks at that node run cleanly, the whole-unit run is clean,
and the node's entry probe's id 0 precedes its fall-through probe's
id 1. -/
theorem c3_fixed_order_entry_before_ft_witness :
    (instrNode c7O InstrState.init (.ifS ⟨0, 40, 0⟩
        (.compound ⟨7, 30, 0⟩ [.returnS ⟨8, 9, 0⟩]) none)).rep.clean
      = true ∧
    (instrument c7O (.ifS ⟨0, 40, 0⟩
        (.compound ⟨7, 30, 0⟩ [.returnS ⟨8, 9, 0⟩]) none)).rep.clean
      = true ∧
    (0 : Nat) < 1 := by
  refine ⟨by decide, by decide, ?_⟩
  exact (c3_fixed_order_entry_before_ft c7O InstrState.init InstrState.init
      (.ifS ⟨0, 40, 0⟩ (.compound ⟨7, 30, 0⟩ [.returnS ⟨8, 9, 0⟩]) none)
      (.ifS ⟨0, 40, 0⟩ (.compound ⟨7, 30, 0⟩ [.returnS ⟨8, 9, 0⟩]) none)
      (by decide) (by decide) rfl (by decide)).2.2
    ⟨0, 7, .entryProbe 0⟩ (by decide) ⟨0, 40, .ftProbe "?" 1⟩ (by decide)
    (by decide) (by decide) 0 1 (by decide) (by decide)

theorem flatMap_nil_of_forall {A : Type} (l : List Stmt) (f : Stmt → List A)
    (h : ∀ x ∈ l, f x = []) : l.flatMap f = [] := by
  induction l with
  | nil => rfl
  | cons a as ih =>
    rw [List.flatMap_cons, h a (by simp),
      ih (fun x hx => h x (by simp [hx]))]
    rfl

/-- C5 (amended): for a non-block, non-empty body (here: the then branch
of an `if`, with an inert interior), the canonicalizer opens a brace at
the body's first token and owes exactly one closing brace at the end
boundary, which is: the `;` token's location when the token following
the body's last token is a terminating `;`, and otherwise the start of
the body's own last token (`Lexer::GetBeginningOfToken` of the end
location) — not the start of the next token. -/
theorem c5_end_boundary_rule (O : Src) (i : Info) (s : Stmt)
    (hm : i.expFile = O.mainFile)
    (hg : O.fileOf (O.spell s.beginLoc) = O.mainFile)
    (hc : s.isCompound = false) (hn : s.isNull = false)
    (hin : collectT (canonActs O) s = [])
    (hclean : (canonicalize O (.ifS i s none)).rep.clean = true) :
    (canonicalize O (.ifS i s none)).rep.edits =
      ⟨O.fileOf (O.spell s.beginLoc), O.spell s.beginLoc,
        .braceOpen (O.tokenAt (O.spell s.beginLoc))⟩ ::
      (canonicalize O (.ifS i s none)).debt.map (flushEditOf O) ∧
    debtCount (endBoundary O s.endLoc)
      (canonicalize O (.ifS i s none)).debt = 1 ∧
    (∀ l, l ≠ endBoundary O s.endLoc →
      debtCount l (canonicalize O (.ifS i s none)).debt = 0) ∧
    (∀ l, O.nextTok s.endLoc = some l →
      endBoundary O s.endLoc = if O.isSemiAt l then l else s.endLoc) ∧
    (O.nextTok s.endLoc = none → endBoundary O s.endLoc = s.endLoc) := by
  have hw : visitOrder (.ifS i s none) = (.ifS i s none) :: visitOrder s :=
    visitOrder_wrap _ s rfl
  obtain ⟨he, hd⟩ := canonicalize_chars O _ hclean
  have hall : ∀ n ∈ visitOrder s, canonActs O n = [] :=
    visitOrder_forall_nil _ s hin
  have hflat : (visitOrder (.ifS i s none)).flatMap (canonActs O) =
      handleStmtActs O s := by
    rw [hw, List.flatMap_cons, flatMap_nil_of_forall _ _ hall]
    simp [canonActs, hm]
  rw [hflat, handleStmtActs_go O s hg hc hn] at he hd
  refine ⟨?_, ?_, ?_, ?_, ?_⟩
  · rw [he]
    simp [CAct.editPart]
  · rw [hd]
    simp [List.countP_cons, List.countP_nil, CAct.bumpAt]
  · intro l hl
    rw [hd]
    simp [List.countP_cons, List.countP_nil, CAct.bumpAt, Ne.symm hl]
  · intro l hl
    unfold endBoundary
    rw [hl]
  · intro hl
    unfold endBoundary
    rw [hl]

/-- The oracle at the counterexample for C5's "otherwise" arm: the body
is an inner `if` whose compound then-branch ends at the `\x7d` token at
location 30; the next token starts at 40 and is not a `;`. -/
def c5O : Src where
  tokenAt := fun l => if l = 10 then "if" else if l = 30 then "\x7d" else "?"
  nextTok := fun l => if l = 30 then some 40 else none
  isSemiAt := fun _ => false
  valid := fun _ => true
  buf := fun _ => 0
  spell := fun l => l
  fileOf := fun _ => 0
  mainFile := 0
  fileBegin := 300

/-- Outer `if` whose non-compound then branch is an inner `if` with a
braced body: `if (c) if (d) { }` — the braced body's last token is the
`\x7d` at 30, and the token following it (at 40) is not a `;`. -/
def c5TU : Stmt :=
  .ifS ⟨0, 50, 0⟩ (.ifS ⟨10, 30, 0⟩ (.compound ⟨20, 30, 0⟩ []) none) none

/-- Counterexample to C5's "otherwise it is the start of the next
token": with the next token at 40 and not a `;`, the canonicalizer puts
the closing brace at 30 — the start of the body's last token — and no
edit of the run touches the claimed boundary 40. -/
theorem c5_next_token_counterexample :
    endBoundary c5O 30 = 30 ∧
    specEndBoundary c5O 30 = 40 ∧
    endBoundary c5O 30 ≠ specEndBoundary c5O 30 ∧
    (canonicalize c5O c5TU).rep.clean = true ∧
    (canonicalize c5O c5TU).rep.edits =
      [⟨0, 10, .braceOpen "if"⟩, ⟨0, 30, .closeBraces "\x7d" 1⟩] ∧
    (∀ e ∈ (canonicalize c5O c5TU).rep.edits,
      e.loc ≠ specEndBoundary c5O 30) := by
  decide

/-- C1 (amended): for a matched case/default label (possibly at the end
of a fallthrough group), the body the canonicalizer converts into an
explicit block is only the label's own sub-statement: the whole group
contributes exactly one brace-open edit at the sub-statement's first
token and owes exactly one closing brace at the sub-statement's own end
boundary — statements between the sub-statement and the next label are
left outside the inserted block. -/
theorem c1_case_braces_substmt_only (O : Src) (isw ic : Info)
    (outs : List (Bool × Info)) (bl : Bool) (il : Info) (s : Stmt)
    (pre post : List Stmt)
    (hmain : il.expFile = O.mainFile)
    (hs : containsLabel s = false)
    (hg : O.fileOf (O.spell s.beginLoc) = O.mainFile)
    (hc : s.isCompound = false) (hn : s.isNull = false)
    (hin : collectT (canonActs O) s = [])
    (hclean : (canonicalize O (.switchS isw (.compound ic
        (pre ++ mkChain outs (mkLabel bl il s) :: post)))).rep.clean = true)
    (hpre : (collectTL (canonActs O) pre).countP
      (CAct.bumpAt (endBoundary O s.endLoc)) = 0)
    (hpost : (collectTL (canonActs O) post).countP
      (CAct.bumpAt (endBoundary O s.endLoc)) = 0) :
    collectT (canonActs O) (mkChain outs (mkLabel bl il s)) =
      [.edit (O.fileOf (O.spell s.beginLoc)) (O.spell s.beginLoc)
         (.braceOpen (O.tokenAt (O.spell s.beginLoc))),
       .bump (endBoundary O s.endLoc)] ∧
    (⟨O.fileOf (O.spell s.beginLoc), O.spell s.beginLoc,
       .braceOpen (O.tokenAt (O.spell s.beginLoc))⟩ : Edit) ∈
      (canonicalize O (.switchS isw (.compound ic
        (pre ++ mkChain outs (mkLabel bl il s) :: post)))).rep.edits ∧
    debtCount (endBoundary O s.endLoc)
      (canonicalize O (.switchS isw (.compound ic
        (pre ++ mkChain outs (mkLabel bl il s) :: post)))).debt = 1 := by
  have hchain : collectT (canonActs O) (mkChain outs (mkLabel bl il s)) =
      [.edit (O.fileOf (O.spell s.beginLoc)) (O.spell s.beginLoc)
         (.braceOpen (O.tokenAt (O.spell s.beginLoc))),
       .bump (endBoundary O s.endLoc)] := by
    rw [chain_collect_canon O outs bl il s hmain hs,
      handleStmtActs_go O s hg hc hn, hin, List.append_nil]
  have h1 : collectT (canonActs O) (.switchS isw (.compound ic
      (pre ++ mkChain outs (mkLabel bl il s) :: post))) =
      collectTL (canonActs O) pre ++
        (collectT (canonActs O) (mkChain outs (mkLabel bl il s)) ++
          collectTL (canonActs O) post) := by
    rw [collectT_eq]
    simp only [Stmt.childrenOf]
    rw [show canonActs O (.switchS isw (.compound ic
      (pre ++ mkChain outs (mkLabel bl il s) :: post))) = [] from rfl]
    simp only [List.nil_append, collectTL, List.append_nil]
    rw [collectT_eq]
    simp only [Stmt.childrenOf]
    rw [show canonActs O (.compound ic
      (pre ++ mkChain outs (mkLabel bl il s) :: post)) = [] from rfl]
    simp only [List.nil_append]
    rw [collectTL_append]
    simp only [collectTL]
  obtain ⟨he, hd⟩ := canonicalize_chars O _ hclean
  have hperm := visitOrder_flatMap_perm (canonActs O)
    (.switchS isw (.compound ic
      (pre ++ mkChain outs (mkLabel bl il s) :: post)))
  refine ⟨hchain, ?_, ?_⟩
  · rw [he]
    refine List.mem_append_left _ ?_
    refine List.mem_filterMap.mpr ⟨.edit (O.fileOf (O.spell s.beginLoc))
      (O.spell s.beginLoc)
      (.braceOpen (O.tokenAt (O.spell s.beginLoc))), ?_, rfl⟩
    refine hperm.mem_iff.mpr ?_
    rw [h1, hchain]
    simp
  · rw [hd, hperm.countP_eq, h1, hchain]
    simp only [List.countP_append, hpre, hpost]
    simp [List.countP_cons, List.countP_nil, CAct.bumpAt]

/-- The unbraced case run of the spec's definition: `switch(a){case 1:
a=4; break;}` — the sub-statement `a=4` ends at 22, its `;` is at 23,
`break`'s `;` at 30. -/
def c1O : Src where
  tokenAt := fun l => if l = 18 then "a" else if l = 23 then ";" else "?"
  nextTok := fun l => if l = 22 then some 23 else
    if l = 25 then some 30 else none
  isSemiAt := fun l => l == 23 || l == 30
  valid := fun _ => true
  buf := fun _ => 0
  spell := fun l => l
  fileOf := fun _ => 0
  mainFile := 0
  fileBegin := 300

/-- `switch(a){ case 1: a=4; break; }`: the case's sub-statement is
`a=4` alone; `break;` follows it before the switch's closing brace. -/
def c1TU : Stmt :=
  .switchS ⟨0, 60, 0⟩ (.compound ⟨5, 60, 0⟩
    [.caseS ⟨10, 22, 0⟩ (.exprS ⟨18, 22, 0⟩), .breakS ⟨25, 25, 0⟩])

/-- Counterexample to C1: the spec's "entire run" body `a=4; break;`
ends at boundary 30 (after `break`'s `;`), but the canonicalizer closes
the inserted block at 23 — right after `a=4;` — and no edit of the run
touches 30, so `break;` is left outside the block. -/
theorem c1_entire_run_counterexample :
    specCaseRunBoundary c1O (.exprS ⟨18, 22, 0⟩) [.breakS ⟨25, 25, 0⟩]
      = 30 ∧
    (canonicalize c1O c1TU).rep.clean = true ∧
    (canonicalize c1O c1TU).rep.edits =
      [⟨0, 18, .braceOpen "a"⟩, ⟨0, 23, .closeBraces ";" 1⟩] ∧
    debtCount 23 (canonicalize c1O c1TU).debt = 1 ∧
    debtCount 30 (canonicalize c1O c1TU).debt = 0 ∧
    (∀ e ∈ (canonicalize c1O c1TU).rep.edits,
      e.loc ≠ specCaseRunBoundary c1O (.exprS ⟨18, 22, 0⟩)
        [.breakS ⟨25, 25, 0⟩]) := by
  decide

/-- Witness for C1 (amended) on the same translation unit: the group's
brace-open edit sits at `a=4`'s first token and one closing brace is
owed at 23, the boundary of the sub-statement alone. -/
theorem c1_case_braces_substmt_only_witness :
    (canonicalize c1O c1TU).rep.clean = true ∧
    (⟨0, 18, .braceOpen "a"⟩ : Edit) ∈ (canonicalize c1O c1TU).rep.edits ∧
    debtCount 23 (canonicalize c1O c1TU).debt = 1 := by
  refine ⟨by decide, ?_, ?_⟩
  · exact (c1_case_braces_substmt_only c1O ⟨0, 60, 0⟩ ⟨5, 60, 0⟩ []
      true ⟨10, 22, 0⟩ (.exprS ⟨18, 22, 0⟩) [] [.breakS ⟨25, 25, 0⟩]
      (by decide) (by decide) (by decide) (by decide) (by decide)
      (by decide) (by decide) (by decide) (by decide)).2.1
  · exact (c1_case_braces_substmt_only c1O ⟨0, 60, 0⟩ ⟨5, 60, 0⟩ []
      true ⟨10, 22, 0⟩ (.exprS ⟨18, 22, 0⟩) [] [.breakS ⟨25, 25, 0⟩]
      (by decide) (by decide) (by decide) (by decide) (by decide)
      (by decide) (by decide) (by decide) (by decide)).2.2

/-- C8 (amended): per-site failure handling as actually implemented — a
failed `createReplacement` adds one diagnostic and the run continues
(the abort flag is untouched); `createReplacement` rejects a
replacement whose two locations spell into different files (only
reachable when start and end differ); and a body whose *begin* spells
outside the main file is skipped by the canonicalizer with no edit at
all.  No cross-file check relates a body's begin to its separately
flushed end boundary. -/
theorem c8_per_site_failure (O : Src) (st : CanonState) (s : Stmt)
    (r : RepState) (startL endL : Nat) (text : EditText) :
    (createReplacement O startL endL text = none →
      addReplacementOrDie O r startL endL text =
        { r with diags := r.diags + 1 }) ∧
    (O.valid startL = true → O.valid endL = true →
      O.buf startL = O.buf endL →
      O.fileOf (O.spell startL) ≠ O.fileOf (O.spell endL) →
      createReplacement O startL endL text = none) ∧
    (O.fileOf (O.spell s.beginLoc) ≠ O.mainFile →
      handleStmt O st s = st) := by
  refine ⟨fun hc => addRep_eq_none O r hc, ?_, ?_⟩
  · intro hv1 hv2 hb hf
    unfold createReplacement
    rw [if_neg (by simp [hv1, hv2]), if_neg (by simp [hb]), if_pos hf]
  · intro hg
    unfold handleStmt
    rw [if_pos hg]

/-- Oracle for the C8 counterexample: a body beginning in the main file
(file 0) whose end boundary at 12 spells into file 1. -/
def crossO : Src where
  tokenAt := fun l => if l = 10 then "x" else "?"
  nextTok := fun _ => none
  isSemiAt := fun _ => false
  valid := fun _ => true
  buf := fun _ => 0
  spell := fun l => l
  fileOf := fun l => if l = 12 then 1 else 0
  mainFile := 0
  fileBegin := 300

/-- An `if` whose non-compound body begins at 10 (main file) and ends at
12 (spelling into file 1). -/
def crossTU : Stmt := .ifS ⟨0, 12, 0⟩ (.exprS ⟨10, 12, 0⟩) none

/-- Counterexample to C8: the body's begin and end boundary resolve to
different files, yet the site is not skipped and no diagnostic is
emitted — the brace-open edit lands in file 0 and the closing-brace
flush edit lands in file 1, with zero diagnostics and no abort. -/
theorem c8_cross_file_counterexample :
    crossO.fileOf (crossO.spell 10) = 0 ∧
    crossO.fileOf (crossO.spell (endBoundary crossO 12)) = 1 ∧
    crossO.mainFile = 0 ∧
    (canonicalize crossO crossTU).rep.edits =
      [⟨0, 10, .braceOpen "x"⟩, ⟨1, 12, .closeBraces "?" 1⟩] ∧
    (canonicalize crossO crossTU).rep.diags = 0 ∧
    (canonicalize crossO crossTU).rep.died = false := by
  decide

/-- Oracle for the C8 witness: location 5 is invalid; location 10 spells
into file 1, every other location into the main file 0. -/
def c8wO : Src where
  tokenAt := fun _ => "?"
  nextTok := fun _ => none
  isSemiAt := fun _ => false
  valid := fun l => l != 5
  buf := fun _ => 0
  spell := fun l => l
  fileOf := fun l => if l = 10 then 1 else 0
  mainFile := 0
  fileBegin := 300

/-- Witness for C8 (amended): a failing replacement at the invalid
location 5 yields one diagnostic and no abort; locations 20 and 10
spell into different files and are rejected; a body beginning at the
out-of-main location 10 is skipped entirely. -/
theorem c8_per_site_failure_witness :
    addReplacementOrDie c8wO RepState.init 5 5 .emptyBlock =
      { RepState.init with diags := RepState.init.diags + 1 } ∧
    createReplacement c8wO 20 10 .emptyBlock = none ∧
    handleStmt c8wO CanonState.init (.exprS ⟨10, 12, 0⟩)
      = CanonState.init := by
  refine ⟨?_, ?_, ?_⟩
  · exact (c8_per_site_failure c8wO CanonState.init (.exprS ⟨10, 12, 0⟩)
      RepState.init 5 5 .emptyBlock).1 (by decide)
  · exact (c8_per_site_failure c8wO CanonState.init (.exprS ⟨10, 12, 0⟩)
      RepState.init 20 10 .emptyBlock).2.1 (by decide) (by decide)
      (by decide) (by decide)
  · exact (c8_per_site_failure c8wO CanonState.init (.exprS ⟨10, 12, 0⟩)
      RepState.init 5 5 .emptyBlock).2.2 (by decide)

theorem toEdit_file (sp : ProbeSpec) (k : Nat) :
    (sp.toEdit k).file = sp.file := by
  unfold ProbeSpec.toEdit
  split <;> rfl

theorem nodeProbeSpecs_shape (O : Src) (n : Stmt) :
    ∀ sp ∈ nodeProbeSpecs O n,
      (∃ c, sp = entrySpec O c) ∨ (∃ m, sp = ftSpec O m) := by
  intro sp hsp
  cases n with
  | ifS i t e =>
    cases e with
    | none =>
      simp only [nodeProbeSpecs] at hsp
      rcases List.mem_append.mp hsp with h | h
      · exact Or.inl ⟨t, (mem_ite_singleton h).2⟩
      · rcases List.mem_append.mp h with h2 | h2
        · simp at h2
        · exact Or.inr ⟨_, (mem_ite_singleton h2).2⟩
    | some els =>
      simp only [nodeProbeSpecs] at hsp
      rcases List.mem_append.mp hsp with h | h
      · exact Or.inl ⟨t, (mem_ite_singleton h).2⟩
      · rcases List.mem_append.mp h with h2 | h2
        · exact Or.inl ⟨els, (mem_ite_singleton h2).2⟩
        · exact Or.inr ⟨_, (mem_ite_singleton h2).2⟩
  | forS i b =>
    simp only [nodeProbeSpecs] at hsp
    rcases List.mem_append.mp hsp with h | h
    · exact Or.inl ⟨b, (mem_ite_singleton h).2⟩
    · exact Or.inr ⟨_, (mem_ite_singleton h).2⟩
  | whileS i b =>
    simp only [nodeProbeSpecs] at hsp
    rcases List.mem_append.mp hsp with h | h
    · exact Or.inl ⟨b, (mem_ite_singleton h).2⟩
    · exact Or.inr ⟨_, (mem_ite_singleton h).2⟩
  | doS i b =>
    simp only [nodeProbeSpecs] at hsp
    rcases List.mem_append.mp hsp with h | h
    · exact Or.inl ⟨b, (mem_ite_singleton h).2⟩
    · exact Or.inr ⟨_, (mem_ite_singleton h).2⟩
  | rangeForS i b =>
    simp only [nodeProbeSpecs] at hsp
    rcases List.mem_append.mp hsp with h | h
    · exact Or.inl ⟨b, (mem_ite_singleton h).2⟩
    · exact Or.inr ⟨_, (mem_ite_singleton h).2⟩
  | switchS i b =>
    simp only [nodeProbeSpecs] at hsp
    exact Or.inr ⟨_, (mem_ite_singleton hsp).2⟩
  | caseS i b =>
    simp only [nodeProbeSpecs] at hsp
    split at hsp
    · exact Or.inl ⟨b, (mem_ite_singleton hsp).2⟩
    · simp at hsp
  | defaultS i b =>
    simp only [nodeProbeSpecs] at hsp
    split at hsp
    · exact Or.inl ⟨b, (mem_ite_singleton hsp).2⟩
    · simp at hsp
  | compound i ss => simp [nodeProbeSpecs] at hsp
  | nullS i => simp [nodeProbeSpecs] at hsp
  | exprS i => simp [nodeProbeSpecs] at hsp
  | returnS i => simp [nodeProbeSpecs] at hsp
  | breakS i => simp [nodeProbeSpecs] at hsp

/-- C10 (amended): the canonicalizer's body-opening edits do target only
the main file (its callback checks the spelling file of the body's
begin), and a translation unit none of whose constructs *expands* in
the main file is left untouched by both tools; but the instrumenter's
edits stay in the main file only under the extra assumption that every
spelled location resolves to the main file — the matchers guard
expansion locations, and an entry probe or flush edit at a location
*spelled* in an included file is applied there. -/
theorem c10_main_file_framing (O : Src) (root : Stmt)
    (hcc : (canonicalize O root).rep.clean = true)
    (hci : (instrument O root).rep.clean = true) :
    (∀ e ∈ (canonicalize O root).rep.edits,
      isBodyOpenText e.text = true → e.file = O.mainFile) ∧
    ((∀ l, O.fileOf (O.spell l) = O.mainFile) →
      ∀ e ∈ (instrument O root).rep.edits, e.file = O.mainFile) ∧
    (collectT (mainMarks O) root = [] →
      canonicalize O root = CanonState.init ∧
      instrument O root = InstrState.init) := by
  refine ⟨?_, ?_, ?_⟩
  · obtain ⟨he, _⟩ := canonicalize_chars O root hcc
    intro e hme hbo
    rw [he] at hme
    rcases List.mem_append.mp hme with h | h
    · rw [filterMap_flatMap] at h
      obtain ⟨n, hn, hmem⟩ := List.mem_flatMap.mp h
      exact (canonActs_edit_mem O n e hmem).1
    · obtain ⟨ld, hld, heq⟩ := List.mem_map.mp h
      rw [← heq] at hbo
      simp [flushEditOf, isBodyOpenText] at hbo
  · intro hspell e hme
    obtain ⟨hc0, he0⟩ := instrument_chars O root hci
    rw [he0] at hme
    rcases List.mem_append.mp hme with h | h
    · obtain ⟨sp, hsp, k, hk⟩ := buildEdits_mem 0 _ e h
      unfold allProbeSpecs at hsp
      obtain ⟨n, hn, hmem⟩ := List.mem_flatMap.mp hsp
      rcases nodeProbeSpecs_shape O n sp hmem with ⟨c, hsp'⟩ | ⟨m, hsp'⟩
      · rw [hk, toEdit_file, hsp']
        show O.fileOf (O.spell c.beginLoc) = O.mainFile
        exact hspell _
      · rw [hk, toEdit_file, hsp']
        show O.fileOf (O.spell (endBoundary O m.endLoc)) = O.mainFile
        exact hspell _
    · split at h
      · simp at h
      · rw [List.mem_singleton.mp h]
        exact hspell _
  · intro hmm0
    have hall := visitOrder_forall_nil (mainMarks O) root hmm0
    have hne : ∀ n ∈ visitOrder root, n.info.expFile ≠ O.mainFile := by
      intro n hn he
      have h0 := hall n hn
      unfold mainMarks at h0
      rw [if_pos he] at h0
      simp at h0
    constructor
    · refine canonicalize_nil O root ?_
      have hfm : (visitOrder root).flatMap (canonActs O) = [] :=
        flatMap_nil_of_forall _ _
          (fun n hn => canonActs_nonmain O n (hne n hn))
      have hp := (visitOrder_flatMap_perm (canonActs O) root).symm
      rw [hfm] at hp
      exact List.Perm.eq_nil hp
    · refine instrument_nil O root ?_
      have hfm : (visitOrder root).flatMap (nodeProbeSpecs O) = [] :=
        flatMap_nil_of_forall _ _
          (fun n hn => nodeProbeSpecs_nonmain O n (hne n hn))
      have hp := (visitOrder_flatMap_perm (nodeProbeSpecs O) root).symm
      rw [hfm] at hp
      exact List.Perm.eq_nil hp

/-- Oracle for the C10 counterexample: the block's `\x7b` at 7 is
*spelled* at 100, which lies in the included file 1; the `if` itself
expands in the main file 0. -/
def macroO : Src where
  tokenAt := fun l => if l = 0 then "int" else "?"
  nextTok := fun _ => none
  isSemiAt := fun _ => false
  valid := fun _ => true
  buf := fun _ => 0
  spell := fun l => if l = 7 then 100 else l
  fileOf := fun l => if l = 100 then 1 else 0
  mainFile := 0
  fileBegin := 0

/-- An `if` expanding in the main file whose compound then-branch's
`\x7b` is spelled inside the included file. -/
def macroTU : Stmt := .ifS ⟨0, 20, 0⟩ (.compound ⟨7, 20, 0⟩ []) none

/-- Counterexample to C10: the construct's expansion location is in the
main file, so the matcher fires, but the entry probe is applied at the
spelled location — inside included file 1, which is therefore not left
unchanged; the run is clean, so nothing flags it. -/
theorem c10_included_file_edit_counterexample :
    macroTU.info.expFile = macroO.mainFile ∧
    macroO.fileOf (macroO.spell 7) = 1 ∧
    (instrument macroO macroTU).rep.clean = true ∧
    (instrument macroO macroTU).rep.edits =
      [⟨1, 100, .entryProbe 0⟩, ⟨0, 0, .declsHeader 1 "int"⟩] ∧
    (⟨1, 100, .entryProbe 0⟩ : Edit) ∈ (instrument macroO macroTU).rep.edits ∧
    (1 : Nat) ≠ macroO.mainFile := by
  decide

/-- A translation unit none of whose constructs expands in the main
file (all expansion file ids are 1). -/
def nmTU : Stmt := .ifS ⟨0, 12, 1⟩ (.exprS ⟨5, 7, 1⟩) none

/-- Witness for C10 (amended): on the switch test every instrumenter
edit targets the main file (its oracle spells everything there), and
the all-included translation unit `nmTU` is left untouched by both
tools. -/
theorem c10_main_file_framing_witness :
    (∀ e ∈ (instrument swO swTU).rep.edits, e.file = swO.mainFile) ∧
    (canonicalize swO nmTU = CanonState.init ∧
      instrument swO nmTU = InstrState.init) := by
  constructor
  · exact (c10_main_file_framing swO swTU (by decide) (by decide)).2.1
      (fun l => rfl)
  · exact (c10_main_file_framing swO nmTU (by decide) (by decide)).2.2
      (by decide)

/-- Witness for C5 (amended) on the same translation unit: the run is
clean and exactly one closing brace is owed at the end boundary of the
outer `if`'s body. -/
theorem c5_end_boundary_rule_witness :
    (canonicalize c5O c5TU).rep.clean = true ∧
    debtCount (endBoundary c5O 30) (canonicalize c5O c5TU).debt = 1 := by
  refine ⟨by decide, ?_⟩
  exact (c5_end_boundary_rule c5O ⟨0, 50, 0⟩
    (.ifS ⟨10, 30, 0⟩ (.compound ⟨20, 30, 0⟩ []) none)
    (by decide) (by decide) (by decide) (by decide) (by decide)
    (by decide)).2.1

end Dce
